import Mathlib

/-!
# Verification of the DataFusion file-scan configuration layer

Shallow embedding of `datafusion/core/src/datasource/physical_plan/file_scan_config.rs`:
the projection algebra (`FileScanConfig::project`), the first-fit bin packing over file
statistics (`FileScanConfig::split_groups_by_statistics`), and the dictionary wrappers
for partition columns (`wrap_partition_type_in_dict` / `wrap_partition_value_in_dict`).

External collaborators that are not part of the source file (the statistics summarizer
`MinMaxStatistics`, `Constraints::project`, and the ordering-projection collaborator)
are modelled from the specification, and are marked as such in their doc comments.
-/

namespace FileScan

/-! ## Arrow data model: data types, scalar values, fields, schemas -/

/-- Arrow `DataType`, restricted to the variants exercised by this layer.
`dictionary key value` is `DataType::Dictionary(Box<key>, Box<value>)`. -/
inductive DataType where
  | int32
  | uint16
  | float64
  | utf8
  | boolean
  | dictionary (key : DataType) (value : DataType)
deriving DecidableEq, Repr, Inhabited

/-- `ScalarValue`, restricted to the variants exercised by this layer.
`dictionary key v` is `ScalarValue::Dictionary(Box<key>, Box<v>)`; statistics values
are modelled over the integer-valued variants. -/
inductive ScalarValue where
  | int32 (v : Option Int)
  | uint16 (v : Option Nat)
  | utf8 (v : Option String)
  | boolean (v : Option Bool)
  | dictionary (key : DataType) (v : ScalarValue)
deriving DecidableEq, Repr, Inhabited

/-- `ScalarValue::data_type`. -/
def ScalarValue.data_type : ScalarValue → DataType
  | .int32 _ => .int32
  | .uint16 _ => .uint16
  | .utf8 _ => .utf8
  | .boolean _ => .boolean
  | .dictionary key v => .dictionary key v.data_type

/-- Arrow `Field`: a named, typed, possibly nullable column. -/
structure Field where
  name : String
  data_type : DataType
  nullable : Bool
deriving DecidableEq, Repr, Inhabited

/-- Arrow `Schema`: an ordered sequence of fields plus a metadata map
(modelled as an association list). -/
structure Schema where
  fields : List Field
  metadata : List (String × String)
deriving DecidableEq, Repr, Inhabited

/-! ## Statistics -/

/-- `datafusion_common::stats::Precision`. -/
inductive Precision (α : Type) where
  | Exact (v : α)
  | Inexact (v : α)
  | Absent
deriving DecidableEq, Repr, Inhabited

/-- `Precision::get_value`: the value carried by `Exact` or `Inexact`. -/
def Precision.get_value : Precision α → Option α
  | .Exact v => some v
  | .Inexact v => some v
  | .Absent => none

/-- `datafusion_common::ColumnStatistics`. -/
structure ColumnStatistics where
  null_count : Precision Nat
  max_value : Precision ScalarValue
  min_value : Precision ScalarValue
  sum_value : Precision ScalarValue
  distinct_count : Precision Nat
deriving DecidableEq, Repr, Inhabited

/-- `ColumnStatistics::new_unknown`: every component `Absent`. -/
def ColumnStatistics.new_unknown : ColumnStatistics :=
  { null_count := .Absent
    max_value := .Absent
    min_value := .Absent
    sum_value := .Absent
    distinct_count := .Absent }

/-- `datafusion_common::Statistics`. -/
structure Statistics where
  num_rows : Precision Nat
  total_byte_size : Precision Nat
  column_statistics : List ColumnStatistics
deriving DecidableEq, Repr, Inhabited

/-- `Statistics::new_unknown`: unknown row count and byte size, one unknown
column-statistics entry per schema field. -/
def Statistics.new_unknown (schema : Schema) : Statistics :=
  { num_rows := .Absent
    total_byte_size := .Absent
    column_statistics := schema.fields.map fun _ => ColumnStatistics.new_unknown }

/-! ## Constraints

`datafusion_common::Constraints` lives outside the source file under verification;
its projection behavior is modelled from the spec. -/

/-- Modelled from the spec: a table constraint (primary key / unique), identified by
the list of column indices it references.  The concrete enum lives in
`datafusion_common::functional_dependencies`, outside the source under `src/`. -/
inductive Constraint where
  | primaryKey (cols : List Nat)
  | unique (cols : List Nat)
deriving DecidableEq, Repr, Inhabited

/-- Column indices referenced by a constraint. -/
def Constraint.cols : Constraint → List Nat
  | .primaryKey cs => cs
  | .unique cs => cs

/-- `datafusion_common::Constraints`: a list of constraints. -/
structure Constraints where
  inner : List Constraint
deriving DecidableEq, Repr, Inhabited

/-- `Constraints::empty`. -/
def Constraints.empty : Constraints := ⟨[]⟩

/-- Remap one constraint's column indices to positions in the projection index list;
`none` if some referenced column is not selected. -/
def Constraint.remap (proj : List Nat) : Constraint → Option Constraint
  | .primaryKey cs => (cs.mapM proj.indexOf?).map .primaryKey
  | .unique cs => (cs.mapM proj.indexOf?).map .unique

/-- Modelled from the spec: `Constraints::project` (in `datafusion_common`, outside
`src/`): "Constraints are remapped through the same index list; if a constraint
references a dropped column, that constraint is dropped rather than erroring
(empty-constraints fallback)."  A constraint referencing a column not selected by
the projection is dropped; the remapping as a whole fails (returns `none`) when no
constraint survives. -/
def Constraints.project (c : Constraints) (proj : List Nat) : Option Constraints :=
  let projected := c.inner.filterMap (Constraint.remap proj)
  if projected.isEmpty then none else some ⟨projected⟩

/-! ## File descriptors -/

/-- `object_store::ObjectMeta` (the parts carried by `PartitionedFile`). -/
structure ObjectMeta where
  location : String
  size : Nat
deriving DecidableEq, Repr, Inhabited

/-- `datafusion::datasource::listing::PartitionedFile`. -/
structure PartitionedFile where
  object_meta : ObjectMeta
  partition_values : List ScalarValue
  range : Option (Int × Int)
  statistics : Option Statistics
  extensions : Option Unit
  metadata_size_hint : Option Nat
deriving DecidableEq, Repr, Inhabited

/-! ## Sort expressions

A physical sort expression over a column of the table schema, with Arrow
`SortOptions`.  The source's `LexOrdering` is a sequence of these. -/

/-- A sort expression: column index into the table schema plus sort options. -/
structure SortExpr where
  column : Nat
  descending : Bool
  nulls_first : Bool
deriving DecidableEq, Repr, Inhabited

/-- `LexOrdering`: a lexicographic sort order. -/
abbrev LexOrdering := List SortExpr

/-! ## Partition-column dictionary wrappers (`wrap_partition_*_in_dict`) -/

/-- `wrap_partition_type_in_dict`: returns `Dictionary(UInt16, val_type)`. -/
def wrap_partition_type_in_dict (val_type : DataType) : DataType :=
  .dictionary .uint16 val_type

/-- `wrap_partition_value_in_dict`: wraps a `ScalarValue` as
`ScalarValue::Dictionary(UInt16, val)`. -/
def wrap_partition_value_in_dict (val : ScalarValue) : ScalarValue :=
  .dictionary .uint16 val

/-! ## The scan descriptor (`FileScanConfig`) and the projection engine -/

/-- `FileScanConfig`.  The `source : Arc<dyn FileSource>` trait object and the
compression enum play no role in the verified operations and are represented by
plain placeholder data (`file_compression_type` as a string tag). -/
structure FileScanConfig where
  object_store_url : String
  file_schema : Schema
  file_groups : List (List PartitionedFile)
  constraints : Constraints
  statistics : Statistics
  projection : Option (List Nat)
  limit : Option Nat
  table_partition_cols : List Field
  output_ordering : List LexOrdering
  file_compression_type : String
  new_lines_in_values : Bool
deriving DecidableEq, Repr, Inhabited

/-- The projection index list `project` iterates over: the explicit projection if
present, otherwise `0 .. file_schema.len + table_partition_cols.len`. -/
def FileScanConfig.proj_indices (c : FileScanConfig) : List Nat :=
  match c.projection with
  | some proj => proj
  | none => List.range (c.file_schema.fields.length + c.table_partition_cols.length)

/-- `FileScanConfig::project`.  The ordering-projection collaborator
(`get_projected_output_ordering`, defined outside this source file) is passed in as
an explicit function argument `ordering_projection`; the source's single loop pushing
into the two vectors `table_fields` / `table_cols_stats` is rendered as two maps over
the same index list. -/
def FileScanConfig.project (c : FileScanConfig)
    (ordering_projection : Schema → List LexOrdering) :
    Schema × Constraints × Statistics × List LexOrdering :=
  if c.projection = none ∧ c.table_partition_cols = [] then
    (c.file_schema, c.constraints, c.statistics, c.output_ordering)
  else
    let proj_indices := c.proj_indices
    let table_fields := proj_indices.map fun idx =>
      if idx < c.file_schema.fields.length then
        c.file_schema.fields.getD idx default
      else
        c.table_partition_cols.getD (idx - c.file_schema.fields.length) default
    let table_cols_stats := proj_indices.map fun idx =>
      if idx < c.file_schema.fields.length then
        c.statistics.column_statistics.getD idx default
      else
        ColumnStatistics.new_unknown
    let table_stats : Statistics :=
      { num_rows := c.statistics.num_rows
        total_byte_size := .Absent
        column_statistics := table_cols_stats }
    let projected_schema : Schema :=
      { fields := table_fields, metadata := c.file_schema.metadata }
    let projected_constraints :=
      (c.constraints.project proj_indices).getD Constraints.empty
    let projected_output_ordering := ordering_projection projected_schema
    (projected_schema, projected_constraints, table_stats, projected_output_ordering)

/-! ## Planning errors

`DataFusionError` as it appears on the packing path: a planning error message,
possibly wrapped in `context` layers naming the responsible stages (mirroring
`DataFusionError::context`). -/

/-- A planning error with its chain of context stages. -/
inductive PlanError where
  | planningError (msg : String)
  | context (stage : String) (cause : PlanError)
deriving DecidableEq, Repr, Inhabited

/-- The innermost (root) message of an error. -/
def PlanError.root : PlanError → String
  | .planningError msg => msg
  | .context _ cause => cause.root

/-- The context stages of an error, outermost first. -/
def PlanError.stages : PlanError → List String
  | .planningError _ => []
  | .context stage cause => stage :: cause.stages

/-! ## Sort keys

The statistics summarizer compares per-file min/max bounds under the lexicographic
sort order (the source uses Arrow's byte-comparable row encoding).  A bound is
modelled as a list of integer components, one per sort expression, with descending
columns negated so that comparison is plain lexicographic order. -/

/-- A per-file bound on the sort key: one integer component per sort expression. -/
abbrev Key := List Int

/-- Strict lexicographic order on sort keys. -/
def keyLT : Key → Key → Bool
  | _, [] => false
  | [], _ :: _ => true
  | a :: as, b :: bs => decide (a < b) || (decide (a = b) && keyLT as bs)

/-- The integer content of a scalar value usable as a sort-key component. -/
def ScalarValue.as_key_int : ScalarValue → Option Int
  | .int32 (some v) => some v
  | .uint16 (some v) => some (v : Int)
  | _ => none

/-! ## The statistics summarizer (`MinMaxStatistics`)

`MinMaxStatistics` lives in `datasource/physical_plan/statistics.rs`, outside the
source file under verification; the spec declares it an external collaborator:
"given a sort-key expression list, a schema, and a set of file descriptors, returns
each file's [min,max] bound on that key and fails if bounds are unavailable or the
key is nullable."  The definitions in this section are modelled from the spec. -/

/-- The usable integer min/max bounds a file carries for column `col`: present
exactly when the file has statistics, the column has an entry, and both the min
and the max are known integer values. -/
def usableBounds (f : PartitionedFile) (col : Nat) : Option (Int × Int) :=
  match f.statistics with
  | none => none
  | some stats =>
    match stats.column_statistics.get? col with
    | none => none
    | some colStats =>
      match colStats.min_value.get_value.bind ScalarValue.as_key_int,
            colStats.max_value.get_value.bind ScalarValue.as_key_int with
      | some mn, some mx => some (mn, mx)
      | _, _ => none

/-- Modelled from the spec: the min/max statistics of one file for one sort column,
read from the file's per-column statistics; fails (naming the column) when the file
lacks usable bounds.  Part of the external Statistics Summarizer
(`MinMaxStatistics`, not under `src/`). -/
def columnMinMax (table_schema : Schema) (f : PartitionedFile) (col : Nat) :
    Except PlanError (Int × Int) :=
  match usableBounds f col with
  | some b => .ok b
  | none =>
    .error (.context
      ("get min/max for column: " ++ (table_schema.fields.getD col default).name)
      (.planningError "statistics not found"))

/-- Modelled from the spec: one file's `[min, max]` bound on the sort key.  For a
descending sort expression the roles of the column's min and max swap and the
component is negated, so that `keyLT` compares bounds in sort-order direction. -/
def sortKeyBounds (table_schema : Schema) (sort_order : LexOrdering)
    (f : PartitionedFile) : Except PlanError (Key × Key) :=
  match sort_order with
  | [] => .ok ([], [])
  | e :: rest => do
    let (mn, mx) ← columnMinMax table_schema f e.column
    let (mns, mxs) ← sortKeyBounds table_schema rest f
    if e.descending then
      .ok (-mx :: mns, -mn :: mxs)
    else
      .ok (mn :: mns, mx :: mxs)

/-- Modelled from the spec: collect every file's sort-key bounds, stage
"collect min/max values". -/
def collectFileBounds (table_schema : Schema) (sort_order : LexOrdering) :
    List PartitionedFile → Except PlanError (List (Key × Key))
  | [] => .ok []
  | f :: rest => do
    let b ← (sortKeyBounds table_schema sort_order f).mapError
      (.context "collect min/max values")
    let bs ← collectFileBounds table_schema sort_order rest
    .ok (b :: bs)

/-- `sort_order` references a nullable column of the schema. -/
def refsNullableColumn (table_schema : Schema) (sort_order : LexOrdering) : Bool :=
  sort_order.any fun e => (table_schema.fields.getD e.column default).nullable

/-- `sort_order` references a column index outside the schema. -/
def refsOutOfRange (table_schema : Schema) (sort_order : LexOrdering) : Bool :=
  sort_order.any fun e => table_schema.fields.length ≤ e.column

/-- The per-file min/max bounds produced by the summarizer. -/
structure MinMaxStatistics where
  mins : List Key
  maxs : List Key
deriving DecidableEq, Repr, Inhabited

/-- `MinMaxStatistics::max`: max bound of the file at `idx`. -/
def MinMaxStatistics.max (s : MinMaxStatistics) (idx : Nat) : Key :=
  s.maxs.getD idx []

/-- Min bound of the file at `idx`. -/
def MinMaxStatistics.minAt (s : MinMaxStatistics) (idx : Nat) : Key :=
  s.mins.getD idx []

/-- The order used to sort `(index, min)` pairs: ascending by min bound, ties
broken by original index (the source uses a stable sort, which coincides with
this total order because indices are distinct). -/
def pairLe (p q : Nat × Key) : Prop :=
  keyLT p.2 q.2 = true ∨ (p.2 = q.2 ∧ p.1 ≤ q.1)

instance : DecidableRel pairLe := fun p q =>
  inferInstanceAs (Decidable (keyLT p.2 q.2 = true ∨ (p.2 = q.2 ∧ p.1 ≤ q.1)))

/-- Modelled from the spec: `MinMaxStatistics::new_from_files` — collect each
file's bounds (failing with the offending column name when a file lacks usable
bounds), then reject nullable sort columns (stages "build min rows" /
"create sorting columns") and out-of-range sort columns. -/
def MinMaxStatistics.new_from_files (sort_order : LexOrdering)
    (table_schema : Schema) (files : List PartitionedFile) :
    Except PlanError MinMaxStatistics := do
  let bounds ← collectFileBounds table_schema sort_order files
  if refsOutOfRange table_schema sort_order then
    .error (.context "build min rows" (.context "create sorting columns"
      (.planningError "sort column index out of range")))
  else if refsNullableColumn table_schema sort_order then
    .error (.context "build min rows" (.context "create sorting columns"
      (.planningError "cannot sort by nullable column")))
  else
    .ok ⟨bounds.map Prod.fst, bounds.map Prod.snd⟩

/-- `MinMaxStatistics::min_values_sorted`: `(index, min)` pairs sorted ascending
by min bound, stable (ties keep input order). -/
def MinMaxStatistics.min_values_sorted (s : MinMaxStatistics) : List (Nat × Key) :=
  List.insertionSort pairLe s.mins.enum

/-! ## The file group packer (`split_groups_by_statistics`) -/

/-- One step of the source's first-fit loop: append file `idx` (whose min bound is
`mn`) to the first group whose last file's max bound is strictly below `mn`; if no
group qualifies, open a new group at the end.  Groups are nonempty by construction
(the source asserts this with `expect`), so the `none` branch of `getLast?` is
unreachable. -/
def insertFirstFit (stats : MinMaxStatistics) (idx : Nat) (mn : Key) :
    List (List Nat) → List (List Nat)
  | [] => [[idx]]
  | g :: gs =>
    match g.getLast? with
    | some l =>
      if keyLT (stats.max l) mn then (g ++ [idx]) :: gs
      else g :: insertFirstFit stats idx mn gs
    | none => g :: insertFirstFit stats idx mn gs

/-- The first-fit loop over the sorted `(index, min)` pairs. -/
def firstFit (stats : MinMaxStatistics) (pairs : List (Nat × Key)) :
    List (List Nat) :=
  pairs.foldl (fun gs p => insertFirstFit stats p.1 p.2 gs) []

/-- `FileScanConfig::split_groups_by_statistics`. -/
def split_groups_by_statistics (table_schema : Schema)
    (file_groups : List (List PartitionedFile)) (sort_order : LexOrdering) :
    Except PlanError (List (List PartitionedFile)) :=
  let flattened_files := file_groups.flatten
  if flattened_files.isEmpty then .ok []
  else
    match MinMaxStatistics.new_from_files sort_order table_schema flattened_files with
    | .error e =>
      .error (.context "construct min/max statistics for split_groups_by_statistics" e)
    | .ok statistics =>
      let indices_sorted_by_min := statistics.min_values_sorted
      let file_groups_indices := firstFit statistics indices_sorted_by_min
      .ok (file_groups_indices.map fun file_group_indices =>
        file_group_indices.map fun idx => flattened_files.getD idx default)

/-! ## Derived relations used to state the packing claims -/

/-- Boolean test that `f` strictly precedes `f'` on the sort key: both files have
summarizer bounds and the max bound of `f` is strictly below the min bound of
`f'`. -/
def fileAfterB (table_schema : Schema) (sort_order : LexOrdering)
    (f f' : PartitionedFile) : Bool :=
  match sortKeyBounds table_schema sort_order f,
        sortKeyBounds table_schema sort_order f' with
  | .ok b, .ok b' => keyLT b.2 b'.1
  | _, _ => false

/-- `f` strictly precedes `f'` on the sort key: the max bound of `f` is strictly
less than the min bound of `f'`. -/
def fileAfter (table_schema : Schema) (sort_order : LexOrdering)
    (f f' : PartitionedFile) : Prop :=
  fileAfterB table_schema sort_order f f' = true

instance (ts : Schema) (so : LexOrdering) : DecidableRel (fileAfter ts so) :=
  fun f f' => inferInstanceAs (Decidable (fileAfterB ts so f f' = true))

/-- Boolean check that a file's recorded interval on the sort key is proper
(min not above max), vacuously true when the file has no usable bounds. -/
def fileWfB (ts : Schema) (so : LexOrdering) (f : PartitionedFile) : Bool :=
  match sortKeyBounds ts so f with
  | .ok b => !(keyLT b.2 b.1)
  | .error _ => true

/-- A chain decomposition of `files`: the groups' flattening is a permutation of
`files` (multiset equality) and each group is internally ordered and
non-overlapping (consecutive files strictly ordered on the sort key). -/
def isChainCover (table_schema : Schema) (sort_order : LexOrdering)
    (files : List PartitionedFile) (cover : List (List PartitionedFile)) : Prop :=
  cover.flatten.Perm files ∧ ∀ c ∈ cover, List.Chain' (fileAfter table_schema sort_order) c

/-! ## Helper lemmas -/

/-- Reading every position of a list through `getD` reproduces the list. -/
theorem map_getD_range (l : List α) (d : α) :
    (List.range l.length).map (fun i => l.getD i d) = l := by
  induction l with
  | nil => rfl
  | cons a t ih =>
    simp only [List.length_cons, List.range_succ_eq_map, List.map_cons, List.map_map]
    refine congrArg₂ _ rfl ?_
    have hc : ((fun i => (a :: t).getD i d) ∘ Nat.succ) = fun i => t.getD i d := by
      funext i
      simp [List.getD]
    rw [hc, ih]

/-! ## Order lemmas for sort keys -/

theorem keyLT_irrefl (k : Key) : keyLT k k = false := by
  induction k with
  | nil => rfl
  | cons a as ih => simp [keyLT, ih]

theorem keyLT_trans : ∀ {a b c : Key},
    keyLT a b = true → keyLT b c = true → keyLT a c = true
  | _, [], _, h1, _ => by simp [keyLT] at h1
  | _, _ :: _, [], _, h2 => by simp [keyLT] at h2
  | [], _ :: _, _ :: _, _, _ => rfl
  | x :: xs, y :: ys, z :: zs, h1, h2 => by
    simp only [keyLT, Bool.or_eq_true, Bool.and_eq_true, decide_eq_true_eq] at h1 h2 ⊢
    rcases h1 with h1 | ⟨rfl, h1⟩
    · rcases h2 with h2 | ⟨rfl, _⟩
      · exact Or.inl (lt_trans h1 h2)
      · exact Or.inl h1
    · rcases h2 with h2 | ⟨rfl, h2⟩
      · exact Or.inl h2
      · exact Or.inr ⟨rfl, keyLT_trans h1 h2⟩

/-- Two keys neither of which is below the other are equal (connexity). -/
theorem keyLT_conn : ∀ {a b : Key},
    keyLT a b = false → keyLT b a = false → a = b
  | [], [], _, _ => rfl
  | [], _ :: _, h1, _ => by simp [keyLT] at h1
  | _ :: _, [], _, h2 => by simp [keyLT] at h2
  | x :: xs, y :: ys, h1, h2 => by
    simp only [keyLT, Bool.or_eq_false_iff, Bool.and_eq_false_iff,
      decide_eq_false_iff_not] at h1 h2
    obtain ⟨hxy, h1'⟩ := h1
    obtain ⟨hyx, h2'⟩ := h2
    have hx : x = y := le_antisymm (le_of_not_lt hyx) (le_of_not_lt hxy)
    subst hx
    rcases h1' with h1' | h1'
    · exact absurd rfl h1'
    · rcases h2' with h2' | h2'
      · exact absurd rfl h2'
      · exact congrArg _ (keyLT_conn h1' h2')

theorem keyLT_tri (a b : Key) :
    keyLT a b = true ∨ a = b ∨ keyLT b a = true := by
  cases hab : keyLT a b
  · cases hba : keyLT b a
    · exact Or.inr (Or.inl (keyLT_conn hab hba))
    · exact Or.inr (Or.inr rfl)
  · exact Or.inl rfl

theorem keyLT_asymm {a b : Key} (h : keyLT a b = true) : keyLT b a = false := by
  cases hba : keyLT b a
  · rfl
  · have := keyLT_trans h hba
    rw [keyLT_irrefl] at this
    exact Bool.noConfusion this

/-- `a < b` and `b ≤ c` (as `¬ c < b`) give `a < c`. -/
theorem keyLT_of_lt_of_nlt {a b c : Key}
    (h1 : keyLT a b = true) (h2 : keyLT c b = false) : keyLT a c = true := by
  rcases keyLT_tri b c with h | h | h
  · exact keyLT_trans h1 h
  · exact h ▸ h1
  · rw [h] at h2
    exact Bool.noConfusion h2

/-- `a ≤ b` (as `¬ b < a`) and `b < c` give `a < c`. -/
theorem keyLT_of_nlt_of_lt {a b c : Key}
    (h1 : keyLT b a = false) (h2 : keyLT b c = true) : keyLT a c = true := by
  rcases keyLT_tri a b with h | h | h
  · exact keyLT_trans h h2
  · exact h ▸ h2
  · rw [h] at h1
    exact Bool.noConfusion h1

/-- `≤` (as `¬ <`) is transitive. -/
theorem keyLT_nlt_trans {a b c : Key}
    (h1 : keyLT b a = false) (h2 : keyLT c b = false) : keyLT c a = false := by
  cases hca : keyLT c a
  · rfl
  · exact absurd (keyLT_of_lt_of_nlt hca h1) (by simp [h2])

instance : IsTotal (Nat × Key) pairLe :=
  ⟨fun p q => by
    rcases keyLT_tri p.2 q.2 with h | h | h
    · exact Or.inl (Or.inl h)
    · rcases Nat.le_total p.1 q.1 with h' | h'
      · exact Or.inl (Or.inr ⟨h, h'⟩)
      · exact Or.inr (Or.inr ⟨h.symm, h'⟩)
    · exact Or.inr (Or.inl h)⟩

instance : IsTrans (Nat × Key) pairLe :=
  ⟨fun p q r hpq hqr => by
    rcases hpq with hpq | ⟨hpq, hpq'⟩
    · rcases hqr with hqr | ⟨hqr, _⟩
      · exact Or.inl (keyLT_trans hpq hqr)
      · exact Or.inl (hqr ▸ hpq)
    · rcases hqr with hqr | ⟨hqr, hqr'⟩
      · exact Or.inl (hpq ▸ hqr)
      · exact Or.inr ⟨hpq.trans hqr, hpq'.trans hqr'⟩⟩

/-- A `pairLe` step bounds the min keys: the earlier pair's key is not above the
later one's. -/
theorem pairLe_key {p q : Nat × Key} (h : pairLe p q) : keyLT q.2 p.2 = false := by
  rcases h with h | ⟨h, _⟩
  · exact keyLT_asymm h
  · rw [h]
    exact keyLT_irrefl q.2

/-! ## Lemmas about the first-fit loop -/

/-- One first-fit step either appends to the first group whose last file's max
bound is below `mn`, or — when every group's last file overlaps `mn` — opens a new
singleton group at the end. -/
theorem insertFirstFit_cases (stats : MinMaxStatistics) (i : Nat) (mn : Key) :
    ∀ gs : List (List Nat),
    (∃ pre g l post, gs = pre ++ g :: post ∧ g.getLast? = some l ∧
      keyLT (stats.max l) mn = true ∧
      insertFirstFit stats i mn gs = pre ++ (g ++ [i]) :: post) ∨
    (insertFirstFit stats i mn gs = gs ++ [[i]] ∧
      ∀ g ∈ gs, ∀ l, g.getLast? = some l → keyLT (stats.max l) mn = false)
  | [] => Or.inr ⟨rfl, by simp⟩
  | g :: gs => by
    rcases hlast : g.getLast? with _ | l
    · rcases insertFirstFit_cases stats i mn gs with
        ⟨pre, g', l', post, hgs, hl', hcond, hres⟩ | ⟨hres, hfail⟩
      · refine Or.inl ⟨g :: pre, g', l', post, by simp [hgs], hl', hcond, ?_⟩
        simp [insertFirstFit, hlast, hres]
      · refine Or.inr ⟨by simp [insertFirstFit, hlast, hres], ?_⟩
        intro g' hg' l' hl'
        rcases hg' with _ | hg'
        · rw [hlast] at hl'
          exact Option.noConfusion hl'
        · exact hfail g' (by assumption) l' hl'
    · by_cases hcond : keyLT (stats.max l) mn = true
      · exact Or.inl ⟨[], g, l, gs, rfl, hlast, hcond, by simp [insertFirstFit, hlast, hcond]⟩
      · rcases insertFirstFit_cases stats i mn gs with
          ⟨pre, g', l', post, hgs, hl', hcond', hres⟩ | ⟨hres, hfail⟩
        · refine Or.inl ⟨g :: pre, g', l', post, by simp [hgs], hl', hcond', ?_⟩
          simp [insertFirstFit, hlast, hcond, hres]
        · refine Or.inr ⟨by simp [insertFirstFit, hlast, hcond, hres], ?_⟩
          intro g' hg' l' hl'
          rcases hg' with _ | hg'
          · rw [hlast] at hl'
            rw [← Option.some_inj.mp hl']
            exact Bool.eq_false_iff.mpr hcond
          · exact hfail g' (by assumption) l' hl'

/-- A first-fit step adds exactly the new index to the flattened groups. -/
theorem insertFirstFit_flatten_perm (stats : MinMaxStatistics) (i : Nat) (mn : Key)
    (gs : List (List Nat)) :
    (insertFirstFit stats i mn gs).flatten.Perm (i :: gs.flatten) := by
  rcases insertFirstFit_cases stats i mn gs with
    ⟨pre, g, l, post, hgs, _, _, hres⟩ | ⟨hres, _⟩
  · rw [hres, hgs]
    refine List.perm_iff_count.mpr fun a => ?_
    simp only [List.flatten_append, List.flatten_cons, List.count_append,
      List.count_cons, List.count_nil]
    ring
  · rw [hres]
    refine List.perm_iff_count.mpr fun a => ?_
    simp only [List.flatten_append, List.flatten_cons, List.flatten_nil,
      List.count_append, List.count_cons, List.count_nil]
    ring

/-- Groups stay nonempty across a first-fit step. -/
theorem insertFirstFit_ne (stats : MinMaxStatistics) (i : Nat) (mn : Key)
    (gs : List (List Nat)) (h : ∀ g ∈ gs, g ≠ []) :
    ∀ g ∈ insertFirstFit stats i mn gs, g ≠ [] := by
  rcases insertFirstFit_cases stats i mn gs with
    ⟨pre, g0, l, post, hgs, hl, _, hres⟩ | ⟨hres, _⟩
  · rw [hres]
    intro g hg
    rcases List.mem_append.mp hg with hg | hg
    · exact h g (hgs ▸ List.mem_append.mpr (Or.inl hg))
    · rcases List.mem_cons.mp hg with rfl | hg
      · simp
      · exact h g (hgs ▸ List.mem_append.mpr (Or.inr (List.mem_cons_of_mem _ hg)))
  · rw [hres]
    intro g hg
    rcases List.mem_append.mp hg with hg | hg
    · exact h g hg
    · rcases List.mem_cons.mp hg with rfl | hg
      · simp
      · simp at hg

/-- The chain invariant: a first-fit step preserves internal ordering of every
group (consecutive entries strictly ordered by max-bound < min-bound). -/
theorem insertFirstFit_chain (stats : MinMaxStatistics) (i : Nat) (mn : Key)
    (gs : List (List Nat)) (hmn : mn = stats.minAt i)
    (h : ∀ g ∈ gs,
      List.Chain' (fun a b => keyLT (stats.max a) (stats.minAt b) = true) g) :
    ∀ g ∈ insertFirstFit stats i mn gs,
      List.Chain' (fun a b => keyLT (stats.max a) (stats.minAt b) = true) g := by
  rcases insertFirstFit_cases stats i mn gs with
    ⟨pre, g0, l, post, hgs, hl, hcond, hres⟩ | ⟨hres, _⟩
  · rw [hres]
    intro g hg
    rcases List.mem_append.mp hg with hg | hg
    · exact h g (hgs ▸ List.mem_append.mpr (Or.inl hg))
    · rcases List.mem_cons.mp hg with rfl | hg
      · refine List.chain'_append.mpr
          ⟨h g0 (hgs ▸ List.mem_append.mpr (Or.inr (List.mem_cons_self ..))),
            List.chain'_singleton i, ?_⟩
        intro x hx y hy
        rw [hl, Option.mem_some_iff] at hx
        simp only [List.head?_cons, Option.mem_some_iff] at hy
        subst hx hy
        exact hmn ▸ hcond
      · exact h g (hgs ▸ List.mem_append.mpr (Or.inr (List.mem_cons_of_mem _ hg)))
  · rw [hres]
    intro g hg
    rcases List.mem_append.mp hg with hg | hg
    · exact h g hg
    · rcases List.mem_cons.mp hg with rfl | hg
      · exact List.chain'_singleton i
      · simp at hg

/-- All indices placed by the loop come from the processed pairs or the initial
state. -/
theorem firstFit_go_flatten_perm (stats : MinMaxStatistics) :
    ∀ (pairs : List (Nat × Key)) (gs : List (List Nat)),
    ((pairs.foldl (fun gs p => insertFirstFit stats p.1 p.2 gs) gs).flatten).Perm
      (pairs.map Prod.fst ++ gs.flatten)
  | [], gs => by simp
  | p :: rest, gs => by
    simp only [List.foldl_cons, List.map_cons]
    refine (firstFit_go_flatten_perm stats rest _).trans ?_
    refine (List.Perm.append_left _ (insertFirstFit_flatten_perm ..)).trans ?_
    exact List.perm_middle.trans (List.Perm.refl _)

/-- The indices in the packed groups are exactly the first components of the
sorted pairs. -/
theorem firstFit_flatten_perm (stats : MinMaxStatistics) (pairs : List (Nat × Key)) :
    (firstFit stats pairs).flatten.Perm (pairs.map Prod.fst) := by
  simpa [firstFit] using firstFit_go_flatten_perm stats pairs []

/-- Every group built by the loop satisfies the chain invariant. -/
theorem firstFit_go_chain (stats : MinMaxStatistics) :
    ∀ (pairs : List (Nat × Key)) (gs : List (List Nat)),
    (∀ p ∈ pairs, p.2 = stats.minAt p.1) →
    (∀ g ∈ gs,
      List.Chain' (fun a b => keyLT (stats.max a) (stats.minAt b) = true) g) →
    ∀ g ∈ pairs.foldl (fun gs p => insertFirstFit stats p.1 p.2 gs) gs,
      List.Chain' (fun a b => keyLT (stats.max a) (stats.minAt b) = true) g
  | [], gs, _, h => h
  | p :: rest, gs, hco, h => by
    simp only [List.foldl_cons]
    exact firstFit_go_chain stats rest _ (fun q hq => hco q (List.mem_cons_of_mem _ hq))
      (insertFirstFit_chain stats p.1 p.2 gs (hco p (List.mem_cons_self ..)) h)

/-- Every group built by the loop is nonempty. -/
theorem firstFit_go_ne (stats : MinMaxStatistics) :
    ∀ (pairs : List (Nat × Key)) (gs : List (List Nat)),
    (∀ g ∈ gs, g ≠ []) →
    ∀ g ∈ pairs.foldl (fun gs p => insertFirstFit stats p.1 p.2 gs) gs, g ≠ []
  | [], _, h => h
  | p :: rest, gs, h => by
    simp only [List.foldl_cons]
    exact firstFit_go_ne stats rest _ (insertFirstFit_ne stats p.1 p.2 gs h)

/-! ## Lemmas about the sorted pairs and the summarizer -/

theorem min_values_sorted_perm (s : MinMaxStatistics) :
    s.min_values_sorted.Perm s.mins.enum :=
  List.perm_insertionSort pairLe s.mins.enum

theorem min_values_sorted_sorted (s : MinMaxStatistics) :
    List.Sorted pairLe s.min_values_sorted :=
  List.sorted_insertionSort pairLe s.mins.enum

/-- Each sorted pair records the min bound of its index. -/
theorem min_values_sorted_coh (s : MinMaxStatistics) :
    ∀ p ∈ s.min_values_sorted, p.2 = s.minAt p.1 := by
  intro p hp
  have hmem : p ∈ s.mins.enum := (min_values_sorted_perm s).mem_iff.mp hp
  have hget : s.mins[p.1]? = some p.2 := List.mem_enum_iff_getElem?.mp hmem
  rw [MinMaxStatistics.minAt, List.getD_eq_getElem?_getD, hget]
  rfl

/-- The indices of the sorted pairs are a permutation of `range n`. -/
theorem min_values_sorted_fst_perm (s : MinMaxStatistics) :
    (s.min_values_sorted.map Prod.fst).Perm (List.range s.mins.length) := by
  refine ((min_values_sorted_perm s).map _).trans ?_
  rw [List.enum_map_fst]

instance exceptDecEq {ε α : Type} [DecidableEq ε] [DecidableEq α] :
    DecidableEq (Except ε α)
  | .error e, .error e' =>
    decidable_of_iff (e = e') (by simp)
  | .ok a, .ok b =>
    decidable_of_iff (a = b) (by simp)
  | .error _, .ok _ => isFalse fun h => Except.noConfusion h
  | .ok _, .error _ => isFalse fun h => Except.noConfusion h

/-- Destructor for a successful `Except` bind. -/
theorem except_bind_ok {ε α β : Type} {x : Except ε α} {f : α → Except ε β} {b : β}
    (h : (x >>= f) = .ok b) : ∃ a, x = .ok a ∧ f a = .ok b := by
  cases x with
  | error e => exact absurd h fun hh => Except.noConfusion hh
  | ok a => exact ⟨a, rfl, h⟩

/-- `mapError` does not affect a success. -/
theorem except_mapError_ok {ε ε' α : Type} {x : Except ε α} {g : ε → ε'} {a : α}
    (h : x.mapError g = .ok a) : x = .ok a := by
  cases x with
  | error e => exact Except.noConfusion h
  | ok b => simpa [Except.mapError] using h

/-- Successful bounds collection relates files and bounds pointwise. -/
theorem collectFileBounds_ok {ts : Schema} {so : LexOrdering}
    {files : List PartitionedFile} {bl : List (Key × Key)}
    (h : collectFileBounds ts so files = .ok bl) :
    List.Forall₂ (fun f b => sortKeyBounds ts so f = .ok b) files bl := by
  induction files generalizing bl with
  | nil =>
    simp only [collectFileBounds, Except.ok.injEq] at h
    rw [← h]
    exact List.Forall₂.nil
  | cons f rest ih =>
    simp only [collectFileBounds] at h
    obtain ⟨b, hb, h⟩ := except_bind_ok h
    obtain ⟨bs, hrest, h2⟩ := except_bind_ok h
    rw [← Except.ok.inj h2]
    exact List.Forall₂.cons (except_mapError_ok hb) (ih hrest)

/-- Successful summarizer construction: the per-file bounds were collected, the
sort columns are in range and non-nullable, and the min/max tables are the
componentwise projections of the collected bounds. -/
theorem new_from_files_ok {so : LexOrdering} {ts : Schema}
    {files : List PartitionedFile} {s : MinMaxStatistics}
    (h : MinMaxStatistics.new_from_files so ts files = .ok s) :
    ∃ bl, collectFileBounds ts so files = .ok bl ∧
      refsOutOfRange ts so = false ∧ refsNullableColumn ts so = false ∧
      s = ⟨bl.map Prod.fst, bl.map Prod.snd⟩ := by
  unfold MinMaxStatistics.new_from_files at h
  obtain ⟨bl, hc, h⟩ := except_bind_ok h
  by_cases h1 : refsOutOfRange ts so = true
  · rw [if_pos h1] at h
    exact Except.noConfusion h
  · rw [if_neg h1] at h
    by_cases h2 : refsNullableColumn ts so = true
    · rw [if_pos h2] at h
      exact Except.noConfusion h
    · rw [if_neg h2] at h
      exact ⟨bl, hc, Bool.eq_false_iff.mpr h1, Bool.eq_false_iff.mpr h2,
        (Except.ok.inj h).symm⟩

/-- On success, the summarizer's tables have one entry per file and agree with
each file's own sort-key bounds. -/
theorem stats_bounds_of_ok {so : LexOrdering} {ts : Schema}
    {files : List PartitionedFile} {s : MinMaxStatistics}
    (h : MinMaxStatistics.new_from_files so ts files = .ok s) :
    s.mins.length = files.length ∧
    ∀ (i : Nat) (f : PartitionedFile), files[i]? = some f →
      ∃ b, sortKeyBounds ts so f = .ok b ∧ s.minAt i = b.1 ∧ s.max i = b.2 := by
  obtain ⟨bl, hbl, _, _, rfl⟩ := new_from_files_ok h
  have hfa := collectFileBounds_ok hbl
  have hlen : files.length = bl.length := hfa.length_eq
  constructor
  · simp [hlen]
  · intro i f hf
    have hi : i < files.length := by
      by_contra hni
      rw [List.getElem?_eq_none (Nat.le_of_not_lt hni)] at hf
      exact Option.noConfusion hf
    have hib : i < bl.length := hlen ▸ hi
    have hr := hfa.get hi hib
    have hfi : files.get ⟨i, hi⟩ = f := by
      have := List.getElem?_eq_getElem hi
      rw [this] at hf
      exact Option.some_inj.mp hf.symm |>.symm
    rw [hfi] at hr
    refine ⟨bl.get ⟨i, hib⟩, hr, ?_, ?_⟩
    · show (bl.map Prod.fst).getD i [] = _
      rw [List.getD_eq_getElem?_getD, List.getElem?_map,
        List.getElem?_eq_getElem hib]
      simp [List.get_eq_getElem]
    · show (bl.map Prod.snd).getD i [] = _
      rw [List.getD_eq_getElem?_getD, List.getElem?_map,
        List.getElem?_eq_getElem hib]
      simp [List.get_eq_getElem]

/-- Case analysis of a successful `split_groups_by_statistics`. -/
theorem split_ok_cases {ts : Schema} {fg : List (List PartitionedFile)}
    {so : LexOrdering} {out : List (List PartitionedFile)}
    (h : split_groups_by_statistics ts fg so = .ok out) :
    (fg.flatten = [] ∧ out = []) ∨
    ∃ s, MinMaxStatistics.new_from_files so ts fg.flatten = .ok s ∧
      out = (firstFit s s.min_values_sorted).map
        (fun g => g.map fun idx => fg.flatten.getD idx default) := by
  unfold split_groups_by_statistics at h
  by_cases he : fg.flatten.isEmpty
  · rw [if_pos he] at h
    exact Or.inl ⟨List.isEmpty_iff.mp he, (Except.ok.inj h).symm⟩
  · rw [if_neg he] at h
    cases hn : MinMaxStatistics.new_from_files so ts fg.flatten with
    | error e => rw [hn] at h; exact Except.noConfusion h
    | ok s =>
      rw [hn] at h
      exact Or.inr ⟨s, rfl, (Except.ok.inj h).symm⟩

/-- Chain implication that may use membership of both endpoints. -/
theorem chain'_imp_of_mem {α : Type} {R S : α → α → Prop} :
    ∀ {l : List α}, (∀ a ∈ l, ∀ b ∈ l, R a b → S a b) →
      List.Chain' R l → List.Chain' S l
  | [], _, _ => List.chain'_nil
  | [a], _, _ => List.chain'_singleton a
  | a :: b :: l, himp, hc => by
    rw [List.chain'_cons] at hc ⊢
    refine ⟨himp a (by simp) b (by simp) hc.1, ?_⟩
    exact chain'_imp_of_mem
      (fun x hx y hy => himp x (List.mem_cons_of_mem _ hx) y (List.mem_cons_of_mem _ hy))
      hc.2

/-- Every index placed by a successful run addresses a file of the flattened
input. -/
theorem split_ok_index_lt {ts : Schema} {fg : List (List PartitionedFile)}
    {so : LexOrdering} {s : MinMaxStatistics}
    (hs : MinMaxStatistics.new_from_files so ts fg.flatten = .ok s) :
    ∀ idxg ∈ firstFit s s.min_values_sorted, ∀ j ∈ idxg, j < fg.flatten.length := by
  intro idxg hidxg j hj
  have hjf : j ∈ (firstFit s s.min_values_sorted).flatten :=
    List.mem_flatten.mpr ⟨idxg, hidxg, hj⟩
  have h1 : j ∈ s.min_values_sorted.map Prod.fst :=
    (firstFit_flatten_perm s s.min_values_sorted).mem_iff.mp hjf
  have h2 : j ∈ List.range s.mins.length :=
    (min_values_sorted_fst_perm s).mem_iff.mp h1
  have hlen : s.mins.length = fg.flatten.length := (stats_bounds_of_ok hs).1
  exact hlen ▸ List.mem_range.mp h2

/-! ## Sample data used by the witness theorems -/

/-- A two-column base schema: `c1 : Int32`, `c2 : Utf8`, both non-nullable. -/
def sampleSchema : Schema :=
  { fields := [⟨"c1", .int32, false⟩, ⟨"c2", .utf8, false⟩], metadata := [("k", "v")] }

/-- Base statistics for `sampleSchema`: known row count, one entry per field. -/
def sampleStatistics : Statistics :=
  { num_rows := .Exact 10
    total_byte_size := .Exact 1234
    column_statistics :=
      [{ null_count := .Exact 0
         max_value := .Exact (.int32 (some 49))
         min_value := .Exact (.int32 (some 0))
         sum_value := .Absent
         distinct_count := .Exact 7 },
       ColumnStatistics.new_unknown] }

/-- A scan descriptor exercising the general projection path: explicit projection
`[2, 0]` (partition column first, then base column 0) over `sampleSchema` with one
partition column, and a constraint on unselected base column 1. -/
def sampleCfg : FileScanConfig :=
  { object_store_url := "test:///"
    file_schema := sampleSchema
    file_groups := []
    constraints := ⟨[.primaryKey [1]]⟩
    statistics := sampleStatistics
    projection := some [2, 0]
    limit := none
    table_partition_cols := [⟨"date", wrap_partition_type_in_dict .utf8, false⟩]
    output_ordering := []
    file_compression_type := "uncompressed"
    new_lines_in_values := false }

/-- A scan descriptor on the identity path: no projection, no partition columns. -/
def sampleCfgIdentity : FileScanConfig :=
  { object_store_url := "test:///"
    file_schema := sampleSchema
    file_groups := []
    constraints := ⟨[.primaryKey [1]]⟩
    statistics := sampleStatistics
    projection := none
    limit := none
    table_partition_cols := []
    output_ordering := [[⟨0, false, false⟩]]
    file_compression_type := "uncompressed"
    new_lines_in_values := false }

/-! ## Claim theorems: dictionary wrappers and projection engine -/

/-- C10: `wrap_partition_type_in_dict t` is `Dictionary(UInt16, t)`, and for every
scalar value `v`, `wrap_partition_value_in_dict v` is a dictionary scalar with key
type `UInt16` whose data type equals `wrap_partition_type_in_dict` of `v`'s data
type — the value wrapper and the type wrapper agree. -/
theorem wrap_partition_dict_agree :
    (∀ t : DataType, wrap_partition_type_in_dict t = DataType.dictionary .uint16 t) ∧
    (∀ v : ScalarValue,
      (∃ inner, wrap_partition_value_in_dict v = ScalarValue.dictionary .uint16 inner) ∧
      (wrap_partition_value_in_dict v).data_type =
        wrap_partition_type_in_dict v.data_type) :=
  ⟨fun _ => rfl, fun v => ⟨⟨v, rfl⟩, rfl⟩⟩

/-- C5: with no projection specified and an empty partition catalog, `project()` is
the identity: it returns the base schema, constraints, statistics, and output
orderings unchanged, for any ordering-projection collaborator. -/
theorem project_identity (c : FileScanConfig)
    (ordering_projection : Schema → List LexOrdering)
    (h1 : c.projection = none) (h2 : c.table_partition_cols = []) :
    c.project ordering_projection =
      (c.file_schema, c.constraints, c.statistics, c.output_ordering) := by
  simp [FileScanConfig.project, h1, h2]

/-- Witness for C5 at a concrete identity-path descriptor. -/
theorem project_identity_witness :
    sampleCfgIdentity.project (fun _ => []) =
      (sampleCfgIdentity.file_schema, sampleCfgIdentity.constraints,
        sampleCfgIdentity.statistics, sampleCfgIdentity.output_ordering) :=
  project_identity sampleCfgIdentity (fun _ => []) rfl rfl

/-- C6: on the general projection path (a projection is specified or the partition
catalog is non-empty), the returned statistics carry the row count through
unchanged and always reset the total byte size to unknown (`Absent`). -/
theorem project_stats_frame (c : FileScanConfig)
    (ordering_projection : Schema → List LexOrdering)
    (h : ¬(c.projection = none ∧ c.table_partition_cols = [])) :
    (c.project ordering_projection).2.2.1.num_rows = c.statistics.num_rows ∧
    (c.project ordering_projection).2.2.1.total_byte_size = Precision.Absent := by
  simp [FileScanConfig.project, h]

/-- Witness for C6: `sampleCfg` projects every column and still loses byte size. -/
theorem project_stats_frame_witness :
    (sampleCfg.project (fun _ => [])).2.2.1.num_rows = sampleCfg.statistics.num_rows ∧
    (sampleCfg.project (fun _ => [])).2.2.1.total_byte_size = Precision.Absent :=
  project_stats_frame sampleCfg (fun _ => []) (by decide)

/-- C9: on the general projection path, when remapping the table constraints
through the projection index list fails (a constraint references a column not
selected by the projection), `project()` returns empty constraints rather than an
error. -/
theorem project_constraints_fallback (c : FileScanConfig)
    (ordering_projection : Schema → List LexOrdering)
    (h : ¬(c.projection = none ∧ c.table_partition_cols = []))
    (hfail : c.constraints.project c.proj_indices = none) :
    (c.project ordering_projection).2.1 = Constraints.empty := by
  simp [FileScanConfig.project, h, hfail]

/-- Witness for C9: `sampleCfg`'s primary key references unselected column 1. -/
theorem project_constraints_fallback_witness :
    (sampleCfg.project (fun _ => [])).2.1 = Constraints.empty :=
  project_constraints_fallback sampleCfg (fun _ => []) (by decide) (by decide)

/-- C4: with a projection index list (explicit, or defaulted to the full range when
absent) whose every index is in range, the projected schema and column statistics
have one entry per index, in listed order: position `p` holds the base field (and a
copy of its column statistics) when `indices[p] < baseFieldCount`, and otherwise the
partition-catalog field at `indices[p] - baseFieldCount` with an "unknown"
statistics entry.  (`hstats` is the data-model invariant that base statistics have
one entry per base field.) -/
theorem project_fields_correct (c : FileScanConfig)
    (ordering_projection : Schema → List LexOrdering)
    (hstats : c.statistics.column_statistics.length = c.file_schema.fields.length)
    (hrange : ∀ i ∈ c.proj_indices,
      i < c.file_schema.fields.length + c.table_partition_cols.length) :
    (c.project ordering_projection).1.fields.length = c.proj_indices.length ∧
    (c.project ordering_projection).2.2.1.column_statistics.length =
      c.proj_indices.length ∧
    ∀ (p idx : Nat), c.proj_indices[p]? = some idx →
      (idx < c.file_schema.fields.length →
        (c.project ordering_projection).1.fields[p]? = c.file_schema.fields[idx]? ∧
        (c.project ordering_projection).2.2.1.column_statistics[p]? =
          c.statistics.column_statistics[idx]?) ∧
      (c.file_schema.fields.length ≤ idx →
        (c.project ordering_projection).1.fields[p]? =
          c.table_partition_cols[idx - c.file_schema.fields.length]? ∧
        (c.project ordering_projection).2.2.1.column_statistics[p]? =
          some ColumnStatistics.new_unknown) := by
  by_cases hfast : c.projection = none ∧ c.table_partition_cols = []
  · -- identity path: the projection defaults to `range baseFieldCount`
    have hproj : c.proj_indices = List.range c.file_schema.fields.length := by
      simp [FileScanConfig.proj_indices, hfast.1, hfast.2]
    rw [hproj]
    simp only [FileScanConfig.project, if_pos hfast, List.length_range]
    refine ⟨trivial, hstats, ?_⟩
    intro p idx hp
    have hplt : p < c.file_schema.fields.length := by
      by_contra hnp
      rw [List.getElem?_eq_none (by simpa using Nat.le_of_not_lt hnp)] at hp
      exact Option.noConfusion hp
    have hidx : idx = p := by
      rw [List.getElem?_range hplt] at hp
      exact (Option.some_inj.mp hp).symm
    subst hidx
    exact ⟨fun _ => ⟨rfl, rfl⟩, fun hge => absurd hplt (Nat.not_lt.mpr hge)⟩
  · -- general path
    simp only [FileScanConfig.project, if_neg hfast]
    refine ⟨by simp, by simp, ?_⟩
    intro p idx hp
    constructor
    · intro hlt
      have hlt' : idx < c.statistics.column_statistics.length := hstats ▸ hlt
      constructor
      · simp only [List.getElem?_map, hp, Option.map_some', if_pos hlt]
        rw [List.getElem?_eq_getElem hlt, List.getD_eq_getElem _ _ hlt]
      · simp only [List.getElem?_map, hp, Option.map_some', if_pos hlt]
        rw [List.getElem?_eq_getElem hlt', List.getD_eq_getElem _ _ hlt']
    · intro hge
      have hmem : idx ∈ c.proj_indices := List.getElem?_mem hp
      have hsub : idx - c.file_schema.fields.length < c.table_partition_cols.length := by
        have := hrange idx hmem
        omega
      have hnlt : ¬ idx < c.file_schema.fields.length := Nat.not_lt.mpr hge
      constructor
      · simp only [List.getElem?_map, hp, Option.map_some', if_neg hnlt]
        rw [List.getElem?_eq_getElem hsub, List.getD_eq_getElem _ _ hsub]
      · simp only [List.getElem?_map, hp, Option.map_some', if_neg hnlt]

/-- Witness for C4 at `sampleCfg` (projection `[2, 0]`): position 0 holds the
partition column with unknown statistics, position 1 holds base column 0 with its
statistics entry copied. -/
theorem project_fields_correct_witness :
    ((sampleCfg.project (fun _ => [])).1.fields[0]? =
        sampleCfg.table_partition_cols[2 - sampleCfg.file_schema.fields.length]? ∧
      (sampleCfg.project (fun _ => [])).2.2.1.column_statistics[0]? =
        some ColumnStatistics.new_unknown) ∧
    ((sampleCfg.project (fun _ => [])).1.fields[1]? =
        sampleCfg.file_schema.fields[0]? ∧
      (sampleCfg.project (fun _ => [])).2.2.1.column_statistics[1]? =
        sampleCfg.statistics.column_statistics[0]?) :=
  have h := project_fields_correct sampleCfg (fun _ => []) (by decide) (by decide)
  ⟨(h.2.2 0 2 (by decide)).2 (by decide), (h.2.2 1 0 (by decide)).1 (by decide)⟩

/-! ## Error analysis of the packing path -/

/-- A failing per-column lookup produces exactly the error naming the column. -/
theorem columnMinMax_error {ts : Schema} {f : PartitionedFile} {c : Nat}
    {e : PlanError} (h : columnMinMax ts f c = .error e) :
    e = .context ("get min/max for column: " ++ (ts.fields.getD c default).name)
      (.planningError "statistics not found") := by
  unfold columnMinMax at h
  cases hv : usableBounds f c with
  | none =>
    rw [hv] at h
    exact (Except.error.inj h).symm
  | some b =>
    rw [hv] at h
    exact Except.noConfusion h

/-- A failing bounds computation comes from a failing per-column lookup of one of
the sort expressions. -/
theorem sortKeyBounds_error {ts : Schema} {f : PartitionedFile} :
    ∀ {so : LexOrdering} {e : PlanError}, sortKeyBounds ts so f = .error e →
      ∃ se ∈ so, columnMinMax ts f se.column = .error e := by
  intro so
  induction so with
  | nil => intro e h; exact absurd h fun hh => Except.noConfusion hh
  | cons se rest ih =>
    intro e h
    simp only [sortKeyBounds] at h
    cases hc : columnMinMax ts f se.column with
    | error e0 =>
      rw [hc] at h
      have he : e0 = e := Except.error.inj h
      exact ⟨se, List.mem_cons_self .., he ▸ hc⟩
    | ok b =>
      rw [hc] at h
      obtain ⟨mn, mx⟩ := b
      cases hrest : sortKeyBounds ts rest f with
      | error e1 =>
        rw [hrest] at h
        have he : e1 = e := Except.error.inj h
        obtain ⟨se1, hse1, hcm⟩ := ih (he ▸ hrest)
        exact ⟨se1, List.mem_cons_of_mem _ hse1, hcm⟩
      | ok bs =>
        rw [hrest] at h
        obtain ⟨mns, mxs⟩ := bs
        cases hd : se.descending
        · rw [hd] at h
          exact Except.noConfusion h
        · rw [hd] at h
          exact Except.noConfusion h

/-- A failing collection pass comes from a failing file, and wraps its error in
the "collect min/max values" stage. -/
theorem collectFileBounds_error {ts : Schema} {so : LexOrdering} :
    ∀ {files : List PartitionedFile} {e : PlanError},
      collectFileBounds ts so files = .error e →
      ∃ f ∈ files, ∃ e0, sortKeyBounds ts so f = .error e0 ∧
        e = .context "collect min/max values" e0 := by
  intro files
  induction files with
  | nil => intro e h; exact absurd h fun hh => Except.noConfusion hh
  | cons f rest ih =>
    intro e h
    simp only [collectFileBounds] at h
    cases hb : sortKeyBounds ts so f with
    | error e0 =>
      rw [hb] at h
      exact ⟨f, List.mem_cons_self .., e0, hb, (Except.error.inj h).symm⟩
    | ok b =>
      rw [hb] at h
      cases hrest : collectFileBounds ts so rest with
      | error e1 =>
        rw [hrest] at h
        have he : e1 = e := Except.error.inj h
        obtain ⟨f1, hf1, e0, he0, hsh⟩ := ih (he ▸ hrest)
        exact ⟨f1, List.mem_cons_of_mem _ hf1, e0, he0, hsh⟩
      | ok bs =>
        rw [hrest] at h
        exact Except.noConfusion h

/-- If some file's bounds computation fails, the collection pass fails. -/
theorem collectFileBounds_error_of_file {ts : Schema} {so : LexOrdering} :
    ∀ {files : List PartitionedFile},
      (∃ f ∈ files, ∃ e0, sortKeyBounds ts so f = .error e0) →
      ∃ e, collectFileBounds ts so files = .error e := by
  intro files
  induction files with
  | nil => rintro ⟨f, hf, _⟩; exact absurd hf (List.not_mem_nil f)
  | cons f rest ih =>
    rintro ⟨f0, hf0, e0, he0⟩
    cases hb : sortKeyBounds ts so f with
    | error eb =>
      refine ⟨.context "collect min/max values" eb, ?_⟩
      simp only [collectFileBounds]
      rw [hb]
      rfl
    | ok b =>
      rcases List.mem_cons.mp hf0 with rfl | hf0r
      · rw [hb] at he0
        exact absurd he0 fun hh => Except.noConfusion hh
      · obtain ⟨e1, he1⟩ := ih ⟨f0, hf0r, e0, he0⟩
        refine ⟨e1, ?_⟩
        simp only [collectFileBounds]
        rw [hb, he1]
        rfl

/-- Shape of a summarizer failure when all sort columns are in range: either a
file lacking usable bounds (stage "collect min/max values", error naming the
column) or a nullable sort column (stages "build min rows" / "create sorting
columns"). -/
theorem new_from_files_error_shape {so : LexOrdering} {ts : Schema}
    {files : List PartitionedFile} {e : PlanError}
    (hcols : refsOutOfRange ts so = false)
    (h : MinMaxStatistics.new_from_files so ts files = .error e) :
    (∃ f ∈ files, ∃ e0, sortKeyBounds ts so f = .error e0 ∧
      e = .context "collect min/max values" e0) ∨
    (refsNullableColumn ts so = true ∧
      e = .context "build min rows" (.context "create sorting columns"
        (.planningError "cannot sort by nullable column"))) := by
  unfold MinMaxStatistics.new_from_files at h
  cases hc : collectFileBounds ts so files with
  | error e1 =>
    rw [hc] at h
    have he : e1 = e := Except.error.inj h
    exact Or.inl (he ▸ collectFileBounds_error hc)
  | ok bl =>
    rw [hc] at h
    replace h : (if refsOutOfRange ts so = true then
        (Except.error (.context "build min rows" (.context "create sorting columns"
          (.planningError "sort column index out of range")))
          : Except PlanError MinMaxStatistics)
      else if refsNullableColumn ts so = true then
        Except.error (.context "build min rows" (.context "create sorting columns"
          (.planningError "cannot sort by nullable column")))
      else Except.ok ⟨bl.map Prod.fst, bl.map Prod.snd⟩) = Except.error e := h
    rw [if_neg (by rw [hcols]; exact Bool.false_ne_true)] at h
    by_cases h2 : refsNullableColumn ts so = true
    · rw [if_pos h2] at h
      exact Or.inr ⟨h2, (Except.error.inj h).symm⟩
    · rw [if_neg h2] at h
      exact absurd h fun hh => Except.noConfusion hh

/-- A nullable sort column or a file without usable bounds makes the summarizer
fail. -/
theorem new_from_files_error_exists {so : LexOrdering} {ts : Schema}
    {files : List PartitionedFile}
    (hcond : refsNullableColumn ts so = true ∨
      ∃ f ∈ files, ∃ e0, sortKeyBounds ts so f = .error e0) :
    ∃ e, MinMaxStatistics.new_from_files so ts files = .error e := by
  unfold MinMaxStatistics.new_from_files
  cases hc : collectFileBounds ts so files with
  | error e1 =>
    exact ⟨e1, rfl⟩
  | ok bl =>
    rcases hcond with h2 | hf
    · by_cases h1 : refsOutOfRange ts so = true
      · refine ⟨.context "build min rows" (.context "create sorting columns"
          (.planningError "sort column index out of range")), ?_⟩
        show (if refsOutOfRange ts so = true then _ else _) = _
        rw [if_pos h1]
      · refine ⟨.context "build min rows" (.context "create sorting columns"
          (.planningError "cannot sort by nullable column")), ?_⟩
        show (if refsOutOfRange ts so = true then _ else _) = _
        rw [if_neg h1, if_pos h2]
    · obtain ⟨e1, he1⟩ := collectFileBounds_error_of_file hf
      rw [hc] at he1
      exact absurd he1 fun hh => Except.noConfusion hh

/-- The error of a failed packing names the responsible stage and, for missing
statistics, the offending column: the outermost stage is the packing context, and
the root cause is either the nullable-column planning error (with a nullable sort
column actually present) or the missing-statistics planning error together with a
stage naming a sort column on which some input file's lookup fails. -/
def identifiesCause (ts : Schema) (so : LexOrdering)
    (files : List PartitionedFile) (er : PlanError) : Prop :=
  er.stages.head? =
    some "construct min/max statistics for split_groups_by_statistics" ∧
  ((er.root = "cannot sort by nullable column" ∧
      refsNullableColumn ts so = true) ∨
    (er.root = "statistics not found" ∧
      ∃ f ∈ files, ∃ se ∈ so,
        ("get min/max for column: " ++ (ts.fields.getD se.column default).name)
          ∈ er.stages ∧
        columnMinMax ts f se.column = .error
          (.context
            ("get min/max for column: " ++ (ts.fields.getD se.column default).name)
            (.planningError "statistics not found"))))

/-! ## Chains and antichains for the minimality analysis -/

/-- Index-level strict order: the max bound of `a` lies strictly below the min
bound of `b`. -/
def idxAfter (stats : MinMaxStatistics) (a b : Nat) : Prop :=
  keyLT (stats.max a) (stats.minAt b) = true

/-- Index-level incomparability (overlapping intervals). -/
def idxIncomp (stats : MinMaxStatistics) (a b : Nat) : Prop :=
  ¬ idxAfter stats a b ∧ ¬ idxAfter stats b a

/-- File-level incomparability (overlapping intervals). -/
def fileIncomp (ts : Schema) (so : LexOrdering) (f g : PartitionedFile) : Prop :=
  ¬ fileAfter ts so f g ∧ ¬ fileAfter ts so g f

theorem fileAfter_iff {ts : Schema} {so : LexOrdering} {f g : PartitionedFile} :
    fileAfter ts so f g ↔
      ∃ bf bg, sortKeyBounds ts so f = .ok bf ∧ sortKeyBounds ts so g = .ok bg ∧
        keyLT bf.2 bg.1 = true := by
  unfold fileAfter fileAfterB
  cases hf : sortKeyBounds ts so f with
  | error e =>
    constructor
    · intro hh
      exact Bool.noConfusion hh
    · rintro ⟨bf, bg, hbf, _, _⟩
      exact Except.noConfusion hbf
  | ok bf =>
    cases hg : sortKeyBounds ts so g with
    | error e =>
      constructor
      · intro hh
        exact Bool.noConfusion hh
      · rintro ⟨bf2, bg, _, hbg, _⟩
        exact Except.noConfusion hbg
    | ok bg =>
      constructor
      · intro hh
        exact ⟨bf, bg, rfl, rfl, hh⟩
      · rintro ⟨bf2, bg2, hbf, hbg, hlt⟩
        obtain rfl := Except.ok.inj hbf
        obtain rfl := Except.ok.inj hbg
        exact hlt

/-- `fileAfter` is transitive through a file with a proper interval. -/
theorem fileAfter_trans_of_wf {ts : Schema} {so : LexOrdering}
    {x y z : PartitionedFile}
    (hwf : ∀ b, sortKeyBounds ts so y = .ok b → keyLT b.2 b.1 = false)
    (h1 : fileAfter ts so x y) (h2 : fileAfter ts so y z) :
    fileAfter ts so x z := by
  obtain ⟨bx, by1, hbx, hby1, hlt1⟩ := fileAfter_iff.mp h1
  obtain ⟨by2, bz, hby2, hbz, hlt2⟩ := fileAfter_iff.mp h2
  rw [hby1] at hby2
  obtain rfl := Except.ok.inj hby2
  have hwfy := hwf by1 hby1
  exact fileAfter_iff.mpr ⟨bx, bz, hbx, hbz,
    keyLT_trans (keyLT_of_lt_of_nlt hlt1 hwfy) hlt2⟩

/-- A chain whose members all have proper intervals is pairwise ordered. -/
theorem chain_pairwise_of_wf {ts : Schema} {so : LexOrdering} :
    ∀ {c : List PartitionedFile},
      (∀ f ∈ c, ∀ b, sortKeyBounds ts so f = .ok b → keyLT b.2 b.1 = false) →
      List.Chain' (fileAfter ts so) c → List.Pairwise (fileAfter ts so) c
  | [], _, _ => List.Pairwise.nil
  | [_], _, _ => by simp
  | f :: g :: rest, hwf, hc => by
    rw [List.chain'_cons] at hc
    have ihp := chain_pairwise_of_wf
      (fun x hx => hwf x (List.mem_cons_of_mem _ hx)) hc.2
    refine List.Pairwise.cons ?_ ihp
    intro b hb
    rcases List.mem_cons.mp hb with rfl | hbr
    · exact hc.1
    · exact fileAfter_trans_of_wf (hwf g (by simp)) hc.1
        ((List.pairwise_cons.mp ihp).1 b hbr)

/-- The per-group last indices, one per nonempty group. -/
theorem filterMap_getLast?_length :
    ∀ {gs : List (List Nat)}, (∀ g ∈ gs, g ≠ []) →
      (gs.filterMap List.getLast?).length = gs.length
  | [], _ => rfl
  | g :: gs, h => by
    obtain ⟨l, hl⟩ : ∃ l, g.getLast? = some l := by
      cases hgl : g.getLast? with
      | none => exact absurd (List.getLast?_eq_none_iff.mp hgl) (h g (by simp))
      | some l => exact ⟨l, rfl⟩
    rw [List.filterMap_cons, hl]
    simpa using filterMap_getLast?_length fun g2 hg2 => h g2 (List.mem_cons_of_mem _ hg2)

/-- The multiset of group lasts is contained in the flattened groups. -/
theorem filterMap_getLast?_le_flatten :
    ∀ gs : List (List Nat),
      ((gs.filterMap List.getLast? : List Nat) : Multiset Nat) ≤
        (gs.flatten : Multiset Nat)
  | [] => le_refl _
  | g :: gs => by
    rw [List.filterMap_cons, List.flatten_cons]
    cases hgl : g.getLast? with
    | none =>
      show ((gs.filterMap List.getLast? : List Nat) : Multiset Nat) ≤
        (g : Multiset Nat) + ↑gs.flatten
      exact le_add_left (filterMap_getLast?_le_flatten gs)
    | some l =>
      have hlg : l ∈ g := List.mem_of_mem_getLast? (Option.mem_def.mpr hgl)
      show ((l :: gs.filterMap List.getLast? : List Nat) : Multiset Nat) ≤
        ((g ++ gs.flatten : List Nat) : Multiset Nat)
      have h1 : ((l :: gs.filterMap List.getLast? : List Nat) : Multiset Nat) =
          {l} + ↑(gs.filterMap List.getLast?) := by
        rw [Multiset.singleton_add]
        rfl
      have h2 : ((g ++ gs.flatten : List Nat) : Multiset Nat) =
          (g : Multiset Nat) + ↑gs.flatten := rfl
      rw [h1, h2]
      exact add_le_add (Multiset.singleton_le.mpr hlg)
        (filterMap_getLast?_le_flatten gs)

/-- The first-fit invariant: at every point of the loop there is an antichain of
placed indices with one element per open group.  When a new group is opened by a
file `i`, every existing group's last file overlaps `i`'s min bound (it was not
eligible even though its own min bound is not larger), so the group lasts
together with `i` form the larger antichain. -/
theorem firstFit_go_antichain (stats : MinMaxStatistics) :
    ∀ (pairs : List (Nat × Key)) (gs : List (List Nat)),
    (∀ p ∈ pairs, p.2 = stats.minAt p.1) →
    (∀ p ∈ pairs, keyLT (stats.max p.1) (stats.minAt p.1) = false) →
    List.Pairwise (fun p q : Nat × Key => keyLT q.2 p.2 = false) pairs →
    (∀ g ∈ gs, g ≠ []) →
    (∀ j ∈ gs.flatten, keyLT (stats.max j) (stats.minAt j) = false) →
    (∀ j ∈ gs.flatten, ∀ p ∈ pairs, keyLT p.2 (stats.minAt j) = false) →
    (∃ A : List Nat, A.Pairwise (idxIncomp stats) ∧
      (A : Multiset Nat) ≤ (gs.flatten : Multiset Nat) ∧ A.length = gs.length) →
    ∃ A : List Nat, A.Pairwise (idxIncomp stats) ∧
      (A : Multiset Nat) ≤
        ((pairs.foldl (fun gs p => insertFirstFit stats p.1 p.2 gs) gs).flatten :
          Multiset Nat) ∧
      A.length =
        (pairs.foldl (fun gs p => insertFirstFit stats p.1 p.2 gs) gs).length := by
  intro pairs
  induction pairs with
  | nil =>
    intro gs _ _ _ _ _ _ hA
    simpa using hA
  | cons p rest ih =>
    intro gs hco hwfP hsorted hne hwfG hle hA
    obtain ⟨i, mn⟩ := p
    simp only [List.foldl_cons]
    have hflat : ((insertFirstFit stats i mn gs).flatten : Multiset Nat) =
        i ::ₘ (gs.flatten : Multiset Nat) :=
      Multiset.coe_eq_coe.mpr (insertFirstFit_flatten_perm stats i mn gs)
    have hmni : mn = stats.minAt i := hco (i, mn) (List.mem_cons_self ..)
    have hwfi : keyLT (stats.max i) (stats.minAt i) = false :=
      hwfP (i, mn) (List.mem_cons_self ..)
    refine ih (insertFirstFit stats i mn gs)
      (fun q hq => hco q (List.mem_cons_of_mem _ hq))
      (fun q hq => hwfP q (List.mem_cons_of_mem _ hq))
      hsorted.of_cons
      (insertFirstFit_ne stats i mn gs hne)
      ?_ ?_ ?_
    · -- well-formed intervals of placed indices
      intro j hj
      rcases List.mem_cons.mp
          ((insertFirstFit_flatten_perm stats i mn gs).mem_iff.mp hj) with rfl | hj2
      · exact hwfi
      · exact hwfG j hj2
    · -- placed min bounds never exceed upcoming min bounds
      intro j hj q hq
      rcases List.mem_cons.mp
          ((insertFirstFit_flatten_perm stats i mn gs).mem_iff.mp hj) with rfl | hj2
      · rw [← hmni]
        exact (List.pairwise_cons.mp hsorted).1 q hq
      · exact hle j hj2 q (List.mem_cons_of_mem _ hq)
    · -- the antichain
      rcases insertFirstFit_cases stats i mn gs with
        ⟨pre, g0, l, post, hgseq, hl, hcond, hres⟩ | ⟨hres, hfail⟩
      · -- the file fits an existing group: keep the old antichain
        obtain ⟨A, hAp, hAle, hAlen⟩ := hA
        refine ⟨A, hAp, ?_, ?_⟩
        · rw [hflat]
          exact hAle.trans (Multiset.le_cons_self _ _)
        · have hlen2 : (insertFirstFit stats i mn gs).length = gs.length := by
            rw [hres, hgseq]
            simp
          rw [hlen2]
          exact hAlen
      · -- the file opens a new group: the group lasts plus `i` form an antichain
        have hlen : (gs.filterMap List.getLast?).length = gs.length :=
          filterMap_getLast?_length hne
        have hlastfact : ∀ l0 ∈ gs.filterMap List.getLast?,
            keyLT (stats.max l0) mn = false ∧
            keyLT mn (stats.minAt l0) = false ∧
            keyLT (stats.max l0) (stats.minAt l0) = false := by
          intro l0 hl0
          obtain ⟨g0, hg0, hgl⟩ := List.mem_filterMap.mp hl0
          have hmem : l0 ∈ gs.flatten :=
            List.mem_flatten.mpr
              ⟨g0, hg0, List.mem_of_mem_getLast? (Option.mem_def.mpr hgl)⟩
          exact ⟨hfail g0 hg0 l0 hgl,
            hle l0 hmem (i, mn) (List.mem_cons_self ..), hwfG l0 hmem⟩
        have hforall : ∀ a ∈ gs.filterMap List.getLast? ++ [i],
            ∀ b ∈ gs.filterMap List.getLast? ++ [i], ¬ idxAfter stats a b := by
          intro a ha b hb habs
          unfold idxAfter at habs
          rcases List.mem_append.mp ha with haL | haI
          · obtain ⟨hfa, hlea, hwfa⟩ := hlastfact a haL
            rcases List.mem_append.mp hb with hbL | hbI
            · obtain ⟨hfb, hleb, hwfb⟩ := hlastfact b hbL
              exact absurd (keyLT_of_lt_of_nlt habs hleb) (by simp [hfa])
            · obtain rfl := List.mem_singleton.mp hbI
              rw [← hmni] at habs
              exact absurd habs (by simp [hfa])
          · obtain rfl := List.mem_singleton.mp haI
            rcases List.mem_append.mp hb with hbL | hbI
            · obtain ⟨hfb, hleb, hwfb⟩ := hlastfact b hbL
              have h1 : keyLT (stats.max a) mn = true :=
                keyLT_of_lt_of_nlt habs hleb
              rw [hmni] at h1
              exact absurd h1 (by simp [hwfi])
            · obtain rfl := List.mem_singleton.mp hbI
              exact absurd habs (by simp [hwfi])
        refine ⟨gs.filterMap List.getLast? ++ [i],
          List.pairwise_of_forall_mem_list
            (fun a ha b hb => ⟨hforall a ha b hb, hforall b hb a ha⟩), ?_, ?_⟩
        · rw [hflat]
          have h1 : ((gs.filterMap List.getLast? ++ [i] : List Nat) : Multiset Nat) =
              ↑(gs.filterMap List.getLast?) + {i} := rfl
          rw [h1]
          calc ↑(gs.filterMap List.getLast?) + ({i} : Multiset Nat)
              ≤ ↑gs.flatten + {i} :=
                add_le_add_right (filterMap_getLast?_le_flatten gs) _
            _ = i ::ₘ ↑gs.flatten := by
                rw [add_comm, Multiset.singleton_add]
        · rw [hres]
          simp [hlen]

/-- A list permuting a two-element list is one of its two arrangements. -/
theorem perm_pair_cases {α : Type} {l : List α} {x y : α}
    (h : l.Perm [x, y]) : l = [x, y] ∨ l = [y, x] := by
  cases l with
  | nil =>
    have := h.length_eq
    simp at this
  | cons a t =>
    cases t with
    | nil =>
      have := h.length_eq
      simp at this
    | cons b t2 =>
      cases t2 with
      | cons c t3 =>
        have := h.length_eq
        simp at this
      | nil =>
        have hax : a ∈ [x, y] := h.subset (by simp)
        rcases List.mem_cons.mp hax with rfl | hay
        · have h2 : [b].Perm [y] := (List.perm_cons a).mp h
          rw [List.perm_singleton.mp h2]
          exact Or.inl rfl
        · obtain rfl := List.mem_singleton.mp hay
          have hswap : ([x, a] : List α).Perm [a, x] := List.Perm.swap a x []
          have h2 : [b].Perm [x] := (List.perm_cons a).mp (h.trans hswap)
          rw [List.perm_singleton.mp h2]
          exact Or.inr rfl

/-- Two elements drawn (with multiplicity) from a pairwise list with a symmetric
relation are related. -/
theorem pairwise_of_pair_le {α : Type} {r : α → α → Prop} (hsym : Symmetric r)
    {A : List α} (hA : A.Pairwise r) {x y : α}
    (h : (([x, y] : List α) : Multiset α) ≤ ↑A) : r x y := by
  obtain ⟨l, hperm, hsub⟩ := Multiset.coe_le.mp h
  have hp : ([x, y] : List α).Pairwise r :=
    (hperm.pairwise_iff @hsym).mp (hA.sublist hsub)
  exact (List.pairwise_cons.mp hp).1 y (by simp)

/-- Two elements drawn (with multiplicity) from a pairwise list are related one
way or the other. -/
theorem chain_pair_le {α : Type} {r : α → α → Prop} {c : List α}
    (hc : c.Pairwise r) {x y : α}
    (h : (([x, y] : List α) : Multiset α) ≤ ↑c) : r x y ∨ r y x := by
  obtain ⟨l, hperm, hsub⟩ := Multiset.coe_le.mp h
  have hp : l.Pairwise r := hc.sublist hsub
  rcases perm_pair_cases hperm with rfl | rfl
  · exact Or.inl ((List.pairwise_cons.mp hp).1 y (by simp))
  · exact Or.inr ((List.pairwise_cons.mp hp).1 x (by simp))

/-- A multiset of size at least two exposes two elements. -/
theorem exists_pair_of_two_le_card {α : Type} {s : Multiset α}
    (h : 2 ≤ Multiset.card s) : ∃ x y t, s = x ::ₘ y ::ₘ t := by
  obtain ⟨x, hx⟩ : ∃ x, x ∈ s :=
    Multiset.card_pos_iff_exists_mem.mp (by omega)
  obtain ⟨t1, rfl⟩ := Multiset.exists_cons_of_mem hx
  rw [Multiset.card_cons] at h
  obtain ⟨y, hy⟩ : ∃ y, y ∈ t1 :=
    Multiset.card_pos_iff_exists_mem.mp (by omega)
  obtain ⟨t, rfl⟩ := Multiset.exists_cons_of_mem hy
  exact ⟨x, y, t, rfl⟩

/-- A sub-multiset of a pairwise list (symmetric relation) is pairwise, as a
list. -/
theorem pairwise_of_le_coe {α : Type} {r : α → α → Prop} (hsym : Symmetric r)
    {A : List α} (hA : A.Pairwise r) {s : Multiset α} (hle : s ≤ ↑A) :
    s.toList.Pairwise r := by
  have h2 : ((s.toList : List α) : Multiset α) ≤ ↑A := by
    rw [Multiset.coe_toList]
    exact hle
  obtain ⟨l, hperm, hsub⟩ := Multiset.coe_le.mp h2
  exact (hperm.pairwise_iff @hsym).mp (hA.sublist hsub)

/-- Pigeonhole for chain covers: a pairwise-incomparable multiset drawn from the
union of chains has at most one element per chain, so its size bounds the number
of chains from below. -/
theorem antichain_le_chains {α : Type} [DecidableEq α] {r : α → α → Prop} :
    ∀ (chains : List (List α)) (A : List α),
      A.Pairwise (fun a b => ¬ r a b ∧ ¬ r b a) →
      (∀ c ∈ chains, c.Pairwise r) →
      (A : Multiset α) ≤ (chains.map (fun c => Multiset.ofList c)).sum →
      A.length ≤ chains.length
  | [], A, _, _, hle => by
    have hz : (A : Multiset α) = 0 := by simpa using hle
    have : A = [] := by simpa using hz
    simp [this]
  | c :: rest, A, hA, hchains, hle => by
    have hsym : Symmetric (fun a b : α => ¬ r a b ∧ ¬ r b a) :=
      fun a b h => ⟨h.2, h.1⟩
    have hcard1 : Multiset.card ((A : Multiset α) ∩ ↑c) ≤ 1 := by
      by_contra hgt
      have h2 : 2 ≤ Multiset.card ((A : Multiset α) ∩ ↑c) := by omega
      obtain ⟨x, y, t, hxyt⟩ := exists_pair_of_two_le_card h2
      have hxy_int : (([x, y] : List α) : Multiset α) ≤ (A : Multiset α) ∩ ↑c := by
        rw [hxyt]
        show x ::ₘ y ::ₘ 0 ≤ x ::ₘ y ::ₘ t
        exact Multiset.cons_le_cons _ (Multiset.cons_le_cons _ (Multiset.zero_le t))
      have hinc := pairwise_of_pair_le hsym hA
        (hxy_int.trans (Multiset.inter_le_left ..))
      rcases chain_pair_le (hchains c (by simp))
          (hxy_int.trans (Multiset.inter_le_right ..)) with hr | hr
      · exact hinc.1 hr
      · exact hinc.2 hr
    have hA' : ((A : Multiset α) - ↑c) ≤
        (rest.map (fun c => Multiset.ofList c)).sum := by
      rw [tsub_le_iff_right]
      calc (A : Multiset α)
          ≤ (List.map (fun c => Multiset.ofList c) (c :: rest)).sum := hle
        _ = ↑c + (rest.map (fun c => Multiset.ofList c)).sum := by simp
        _ = (rest.map (fun c => Multiset.ofList c)).sum + ↑c := add_comm _ _
    have hAp' := pairwise_of_le_coe hsym hA
      (tsub_le_self : (A : Multiset α) - (c : Multiset α) ≤ (A : Multiset α))
    have hrec := antichain_le_chains rest
      ((A : Multiset α) - (↑c : Multiset α)).toList hAp'
      (fun c2 hc2 => hchains c2 (List.mem_cons_of_mem _ hc2))
      (by rw [Multiset.coe_toList]; exact hA')
    have hcount : A.length = Multiset.card ((A : Multiset α) - (↑c : Multiset α)) +
        Multiset.card ((A : Multiset α) ∩ (↑c : Multiset α)) := by
      have h2 := congrArg Multiset.card
        (Multiset.sub_add_inter (A : Multiset α) (↑c : Multiset α))
      rw [Multiset.card_add] at h2
      simpa using h2.symm
    have hlen2 := Multiset.length_toList ((A : Multiset α) - (↑c : Multiset α))
    simp only [List.length_cons]
    omega

/-- Summing the coerced chains of a cover gives the coerced flattening. -/
theorem coe_flatten_sum {α : Type} (L : List (List α)) :
    (L.map (fun c => Multiset.ofList c)).sum = Multiset.ofList L.flatten := by
  induction L with
  | nil => rfl
  | cons c rest ih =>
    rw [List.map_cons, List.sum_cons, List.flatten_cons, ih]
    rfl

/-! ## Sample packing inputs (the spec's literal scenarios, values scaled by 100) -/

/-- A one-column file descriptor with `Exact` min/max statistics on `value`. -/
def mkFile (name : String) (mn mx : Int) : PartitionedFile :=
  { object_meta := ⟨name, 0⟩
    partition_values := [.utf8 (some "2023-01-01")]
    range := none
    statistics := some
      { num_rows := .Absent
        total_byte_size := .Absent
        column_statistics :=
          [{ null_count := .Absent
             max_value := .Exact (.int32 (some mx))
             min_value := .Exact (.int32 (some mn))
             sum_value := .Absent
             distinct_count := .Absent }] }
    extensions := none
    metadata_size_hint := none }

/-- Schema with a single non-nullable sort column `value`. -/
def packSchema : Schema := ⟨[⟨"value", .int32, false⟩], []⟩

/-- Schema whose only column is nullable. -/
def nullableSchema : Schema := ⟨[⟨"value", .int32, true⟩], []⟩

/-- Ascending sort on column 0. -/
def ascOrder : LexOrdering := [⟨0, false, false⟩]

def fileA : PartitionedFile := mkFile "a" 0 49
def fileB : PartitionedFile := mkFile "b" 50 100
def fileC : PartitionedFile := mkFile "c" 0 100

/-- A file with an ordinary interval `[4, 10]`. -/
def fileG : PartitionedFile := mkFile "g" 4 10

/-- A file with corrupted statistics: its recorded min `5` exceeds its recorded
max `2`, so its "interval" is improper.  Nothing in the code validates this. -/
def fileF : PartitionedFile := mkFile "f" 5 2

/-! ## Claim theorems: the file group packer -/

/-- C8: when the flattened file list is empty, `split_groups_by_statistics`
returns `Ok []` for every table schema and sort order — never an error. -/
theorem split_empty_input_ok (ts : Schema) (fg : List (List PartitionedFile))
    (so : LexOrdering) (h : fg.flatten = []) :
    split_groups_by_statistics ts fg so = .ok [] := by
  unfold split_groups_by_statistics
  rw [if_pos (List.isEmpty_iff.mpr h)]

/-- Witness for C8: two empty groups with a nullable sort column still yield
`Ok []`. -/
theorem split_empty_input_ok_witness :
    (([[], []] : List (List PartitionedFile)).flatten = []) ∧
    split_groups_by_statistics nullableSchema [[], []] [⟨0, false, false⟩] = .ok [] :=
  ⟨rfl, split_empty_input_ok nullableSchema [[], []] [⟨0, false, false⟩] rfl⟩

/-- Shared lemma: a successful packing flattens to a permutation of the input. -/
theorem split_flatten_perm {ts : Schema} {fg : List (List PartitionedFile)}
    {so : LexOrdering} {out : List (List PartitionedFile)}
    (h : split_groups_by_statistics ts fg so = .ok out) :
    out.flatten.Perm fg.flatten := by
  rcases split_ok_cases h with ⟨hfe, rfl⟩ | ⟨s, hs, rfl⟩
  · rw [hfe]
    exact List.Perm.refl _
  · have hlen : s.mins.length = fg.flatten.length := (stats_bounds_of_ok hs).1
    have step1 : ((firstFit s s.min_values_sorted).map
          (fun g => g.map fun idx => fg.flatten.getD idx default)).flatten
        = (firstFit s s.min_values_sorted).flatten.map
            (fun idx => fg.flatten.getD idx default) := (List.map_flatten ..).symm
    rw [step1]
    refine ((firstFit_flatten_perm s s.min_values_sorted).map _).trans ?_
    refine ((min_values_sorted_fst_perm s).map _).trans ?_
    rw [hlen, map_getD_range]

/-- C2: on success, the multiset of files in the output groups equals the
multiset of the flattened input — no file lost, duplicated, or modified; each
output descriptor is a clone of an input descriptor. -/
theorem split_groups_completeness (ts : Schema) (fg : List (List PartitionedFile))
    (so : LexOrdering) (out : List (List PartitionedFile))
    (h : split_groups_by_statistics ts fg so = .ok out) :
    out.flatten.Perm fg.flatten :=
  split_flatten_perm h

/-- Witness for C2 at the spec's literal scenario (A, B overlapping-free; C wide):
output `[[A, B], [C]]` is a permutation of the input `[A, B, C]`. -/
theorem split_groups_completeness_witness :
    split_groups_by_statistics packSchema [[fileA, fileB, fileC]] ascOrder =
      .ok [[fileA, fileB], [fileC]] ∧
    ([[fileA, fileB], [fileC]] : List (List PartitionedFile)).flatten.Perm
      ([[fileA, fileB, fileC]] : List (List PartitionedFile)).flatten :=
  ⟨by decide, split_groups_completeness packSchema [[fileA, fileB, fileC]] ascOrder
    [[fileA, fileB], [fileC]] (by decide)⟩

/-- Shared lemma: every group of a successful packing is a chain under
`fileAfter`. -/
theorem split_chain {ts : Schema} {fg : List (List PartitionedFile)}
    {so : LexOrdering} {out : List (List PartitionedFile)}
    (h : split_groups_by_statistics ts fg so = .ok out) :
    ∀ g ∈ out, List.Chain' (fileAfter ts so) g := by
  rcases split_ok_cases h with ⟨_, rfl⟩ | ⟨s, hs, rfl⟩
  · intro g hg
    simp at hg
  · intro g hg
    obtain ⟨idxg, hidxg, rfl⟩ := List.mem_map.mp hg
    have hchain : List.Chain' (fun a b => keyLT (s.max a) (s.minAt b) = true) idxg :=
      firstFit_go_chain s s.min_values_sorted [] (min_values_sorted_coh s)
        (by simp) idxg hidxg
    have hlt := split_ok_index_lt hs idxg hidxg
    rw [List.chain'_map]
    refine chain'_imp_of_mem (fun a ha b hb hr => ?_) hchain
    have hago := (stats_bounds_of_ok hs).2 a (fg.flatten.getD a default)
      (by rw [List.getElem?_eq_getElem (hlt a ha), List.getD_eq_getElem _ _ (hlt a ha)])
    have hbgo := (stats_bounds_of_ok hs).2 b (fg.flatten.getD b default)
      (by rw [List.getElem?_eq_getElem (hlt b hb), List.getD_eq_getElem _ _ (hlt b hb)])
    obtain ⟨ba, hba, hbamin, hbamax⟩ := hago
    obtain ⟨bb, hbb, hbbmin, hbbmax⟩ := hbgo
    show fileAfterB ts so _ _ = true
    unfold fileAfterB
    rw [hba, hbb]
    show keyLT ba.2 bb.1 = true
    rw [← hbamax, ← hbbmin]
    exact hr

/-- C1: on success, within every returned group consecutive files are strictly
ordered and non-overlapping on the sort key: the max bound of each file is
strictly below the min bound of its successor. -/
theorem split_groups_ordering (ts : Schema) (fg : List (List PartitionedFile))
    (so : LexOrdering) (out : List (List PartitionedFile))
    (h : split_groups_by_statistics ts fg so = .ok out) :
    ∀ g ∈ out, List.Chain' (fileAfter ts so) g :=
  split_chain h

/-- Witness for C1: in the computed group `[A, B]`, `max(A) < min(B)` under the
ascending sort order. -/
theorem split_groups_ordering_witness :
    List.Chain' (fileAfter packSchema ascOrder) [fileA, fileB] :=
  split_groups_ordering packSchema [[fileA, fileB, fileC]] ascOrder
    [[fileA, fileB], [fileC]] (by decide) [fileA, fileB] (by decide)

/-- Counterexample to C7 as stated: the sort order references a nullable column,
yet `split_groups_by_statistics` returns `Ok` (the empty-input check precedes the
nullable check), so "returns an error whenever the sort order references a
nullable column" fails at an empty flattened input. -/
theorem split_error_handling_cex :
    refsNullableColumn nullableSchema [⟨0, false, false⟩] = true ∧
    split_groups_by_statistics nullableSchema [[], []] [⟨0, false, false⟩] =
      .ok [] :=
  ⟨by decide, by decide⟩

/-- C7 (amended: for a nonempty flattened file list, with in-range sort columns):
`split_groups_by_statistics` fails exactly when the sort order references a
nullable column or some file lacks usable bounds for a sort column, and the error
identifies the responsible stage and, for missing statistics, names the offending
column. -/
theorem split_error_handling (ts : Schema) (fg : List (List PartitionedFile))
    (so : LexOrdering) (hne : fg.flatten ≠ [])
    (hcols : refsOutOfRange ts so = false) :
    ((∃ er, split_groups_by_statistics ts fg so = .error er) ↔
      (refsNullableColumn ts so = true ∨
        ∃ f ∈ fg.flatten, ∃ e0, sortKeyBounds ts so f = .error e0)) ∧
    (∀ er, split_groups_by_statistics ts fg so = .error er →
      identifiesCause ts so fg.flatten er) := by
  have hniE : ¬ (fg.flatten.isEmpty = true) := fun hh => hne (List.isEmpty_iff.mp hh)
  constructor
  · constructor
    · rintro ⟨er, her⟩
      unfold split_groups_by_statistics at her
      rw [if_neg hniE] at her
      cases hn : MinMaxStatistics.new_from_files so ts fg.flatten with
      | error e =>
        rcases new_from_files_error_shape hcols hn with
          ⟨f, hf, e0, he0, _⟩ | ⟨h2, _⟩
        · exact Or.inr ⟨f, hf, e0, he0⟩
        · exact Or.inl h2
      | ok s =>
        rw [hn] at her
        exact absurd her fun hh => Except.noConfusion hh
    · intro hcond
      obtain ⟨e, he⟩ := new_from_files_error_exists hcond
      refine ⟨.context "construct min/max statistics for split_groups_by_statistics" e, ?_⟩
      unfold split_groups_by_statistics
      rw [if_neg hniE, he]
  · intro er her
    unfold split_groups_by_statistics at her
    rw [if_neg hniE] at her
    cases hn : MinMaxStatistics.new_from_files so ts fg.flatten with
    | ok s =>
      rw [hn] at her
      exact absurd her fun hh => Except.noConfusion hh
    | error e =>
      rw [hn] at her
      have her2 :
          er = .context "construct min/max statistics for split_groups_by_statistics" e :=
        (Except.error.inj her).symm
      subst her2
      rcases new_from_files_error_shape hcols hn with
        ⟨f, hf, e0, he0, rfl⟩ | ⟨h2, rfl⟩
      · obtain ⟨se, hse, hcm⟩ := sortKeyBounds_error he0
        have hshape := columnMinMax_error hcm
        subst hshape
        refine ⟨rfl, Or.inr ⟨rfl, f, hf, se, hse, ?_, hcm⟩⟩
        simp [PlanError.stages]
      · exact ⟨rfl, Or.inl ⟨rfl, h2⟩⟩

/-- Witness for C7: a nonempty input with a nullable sort column fails. -/
theorem split_error_handling_witness :
    ∃ er, split_groups_by_statistics nullableSchema [[fileA]] ascOrder = .error er :=
  (split_error_handling nullableSchema [[fileA]] ascOrder (by decide)
    (by decide)).1.mpr (Or.inl (by decide))

/-- Counterexample to C3 as stated: with corrupted statistics (a file whose
recorded min exceeds its recorded max — nothing validates this), first-fit opens
two groups although one chain covers both files, so the group count is not
minimal.  File g = [4,10], file f = [5,2]: the output is `[[g],[f]]`, but
`[[f, g]]` is a valid single-chain cover (`max f = 2 < 4 = min g`). -/
theorem split_groups_minimality_cex :
    split_groups_by_statistics packSchema [[fileG, fileF]] ascOrder =
      .ok [[fileG], [fileF]] ∧
    isChainCover packSchema ascOrder
      ([[fileG, fileF]] : List (List PartitionedFile)).flatten [[fileF, fileG]] ∧
    ([[fileF, fileG]] : List (List PartitionedFile)).length <
      ([[fileG], [fileF]] : List (List PartitionedFile)).length := by
  refine ⟨by decide, ⟨by decide, ?_⟩, by decide⟩
  intro c hc
  rw [List.mem_singleton.mp hc]
  exact List.chain'_pair.mpr (by decide)

/-- C3 (amended: every input file's recorded interval is proper, `min ≤ max` on
the sort key — the condition under which "comes strictly after" is a strict
partial order): on success the output is itself a chain decomposition of the
flattened input, and no chain decomposition uses fewer chains — the group count
is the minimum chain count. -/
theorem split_groups_minimality (ts : Schema) (fg : List (List PartitionedFile))
    (so : LexOrdering) (out : List (List PartitionedFile))
    (h : split_groups_by_statistics ts fg so = .ok out)
    (hwf : ∀ f ∈ fg.flatten, ∀ b, sortKeyBounds ts so f = .ok b →
      keyLT b.2 b.1 = false) :
    isChainCover ts so fg.flatten out ∧
    ∀ cover, isChainCover ts so fg.flatten cover → out.length ≤ cover.length := by
  have hcover : isChainCover ts so fg.flatten out :=
    ⟨split_flatten_perm h, split_chain h⟩
  refine ⟨hcover, ?_⟩
  intro cover hcov
  rcases split_ok_cases h with ⟨hfe, rfl⟩ | ⟨s, hs, houtdef⟩
  · simp
  · have hsorted_pairs : List.Pairwise
        (fun p q : Nat × Key => keyLT q.2 p.2 = false) s.min_values_sorted :=
      (min_values_sorted_sorted s).imp fun hpq => pairLe_key hpq
    have hmemlt : ∀ p ∈ s.min_values_sorted, p.1 < fg.flatten.length := by
      intro p hp
      have hget : s.mins[p.1]? = some p.2 :=
        List.mem_enum_iff_getElem?.mp ((min_values_sorted_perm s).mem_iff.mp hp)
      have hplt : p.1 < s.mins.length := by
        by_contra hn
        rw [List.getElem?_eq_none (Nat.le_of_not_lt hn)] at hget
        exact Option.noConfusion hget
      exact (stats_bounds_of_ok hs).1 ▸ hplt
    have hb_of_lt : ∀ a : Nat, a < fg.flatten.length →
        ∃ b, sortKeyBounds ts so (fg.flatten.getD a default) = .ok b ∧
          s.minAt a = b.1 ∧ s.max a = b.2 := by
      intro a ha
      exact (stats_bounds_of_ok hs).2 a _
        (by rw [List.getElem?_eq_getElem ha, List.getD_eq_getElem _ _ ha])
    have hwfP : ∀ p ∈ s.min_values_sorted,
        keyLT (s.max p.1) (s.minAt p.1) = false := by
      intro p hp
      obtain ⟨b, hbok, hbmin, hbmax⟩ := hb_of_lt p.1 (hmemlt p hp)
      rw [hbmin, hbmax]
      refine hwf _ ?_ b hbok
      rw [List.getD_eq_getElem _ _ (hmemlt p hp)]
      exact List.getElem_mem _
    obtain ⟨A, hApair, hAle0, hAlen0⟩ := firstFit_go_antichain s s.min_values_sorted []
      (min_values_sorted_coh s) hwfP hsorted_pairs (by simp) (by simp) (by simp)
      ⟨[], List.Pairwise.nil, by simp, rfl⟩
    have hAle : (A : Multiset Nat) ≤
        ((firstFit s s.min_values_sorted).flatten : Multiset Nat) := hAle0
    have hAlen : A.length = (firstFit s s.min_values_sorted).length := hAlen0
    have hAlt : ∀ a ∈ A, a < fg.flatten.length := by
      intro a ha
      have hmem : a ∈ (firstFit s s.min_values_sorted).flatten :=
        Multiset.mem_coe.mp (Multiset.mem_of_le hAle (Multiset.mem_coe.mpr ha))
      obtain ⟨idxg, hidxg, hain⟩ := List.mem_flatten.mp hmem
      exact split_ok_index_lt hs idxg hidxg a hain
    have hfile_iff : ∀ a b : Nat, a < fg.flatten.length → b < fg.flatten.length →
        (fileAfter ts so (fg.flatten.getD a default) (fg.flatten.getD b default) ↔
          idxAfter s a b) := by
      intro a b ha hb
      obtain ⟨ba, hba, hbamin, hbamax⟩ := hb_of_lt a ha
      obtain ⟨bb, hbb, hbbmin, hbbmax⟩ := hb_of_lt b hb
      constructor
      · intro hf
        obtain ⟨ba2, bb2, hba2, hbb2, hlt⟩ := fileAfter_iff.mp hf
        rw [hba] at hba2
        rw [hbb] at hbb2
        obtain rfl := Except.ok.inj hba2
        obtain rfl := Except.ok.inj hbb2
        unfold idxAfter
        rw [hbamax, hbbmin]
        exact hlt
      · intro hi
        unfold idxAfter at hi
        rw [hbamax, hbbmin] at hi
        exact fileAfter_iff.mpr ⟨ba, bb, hba, hbb, hi⟩
    have hApair2 : (A.map fun a => fg.flatten.getD a default).Pairwise
        (fun f g => ¬ fileAfter ts so f g ∧ ¬ fileAfter ts so g f) := by
      rw [List.pairwise_map]
      refine hApair.imp_of_mem ?_
      intro a b ha hb hinc
      exact ⟨fun hf => hinc.1 ((hfile_iff a b (hAlt a ha) (hAlt b hb)).mp hf),
        fun hf => hinc.2 ((hfile_iff b a (hAlt b hb) (hAlt a ha)).mp hf)⟩
    have hchains : ∀ c ∈ cover, c.Pairwise (fileAfter ts so) := by
      intro c hc
      refine chain_pairwise_of_wf ?_ (hcov.2 c hc)
      intro f hf b hb
      exact hwf f (hcov.1.subset (List.mem_flatten.mpr ⟨c, hc, hf⟩)) b hb
    have hmap_le : ((A.map fun a => fg.flatten.getD a default :
        List PartitionedFile) : Multiset PartitionedFile) ≤
        (cover.map (fun c => Multiset.ofList c)).sum := by
      have h1 := Multiset.map_le_map (f := fun a => fg.flatten.getD a default) hAle
      rw [Multiset.map_coe, Multiset.map_coe] at h1
      have h2 : ((firstFit s s.min_values_sorted).flatten.map
          fun a => fg.flatten.getD a default) =
          ((firstFit s s.min_values_sorted).map
            (fun g => g.map fun idx => fg.flatten.getD idx default)).flatten :=
        List.map_flatten ..
      rw [h2] at h1
      have hperm1 : (((firstFit s s.min_values_sorted).map
          (fun g => g.map fun idx => fg.flatten.getD idx default)).flatten).Perm
          fg.flatten := by
        have hp := split_flatten_perm h
        rw [houtdef] at hp
        exact hp
      rw [coe_flatten_sum]
      exact h1.trans (le_of_eq (Multiset.coe_eq_coe.mpr
        (hperm1.trans hcov.1.symm)))
    have hfinal := antichain_le_chains cover
      (A.map fun a => fg.flatten.getD a default) hApair2 hchains hmap_le
    rw [List.length_map] at hfinal
    rw [houtdef, List.length_map]
    exact hAlen ▸ hfinal

/-- Witness for C3 at the spec's literal scenario: the computed grouping
`[[A, B], [C]]` is a chain cover of `[A, B, C]` and is no longer than the cover
`[[A, B], [C]]` itself. -/
theorem split_groups_minimality_witness :
    isChainCover packSchema ascOrder
      ([[fileA, fileB, fileC]] : List (List PartitionedFile)).flatten
      [[fileA, fileB], [fileC]] ∧
    ([[fileA, fileB], [fileC]] : List (List PartitionedFile)).length ≤
      ([[fileA, fileB], [fileC]] : List (List PartitionedFile)).length :=
  have h := split_groups_minimality packSchema [[fileA, fileB, fileC]] ascOrder
    [[fileA, fileB], [fileC]] (by decide)
    (by
      intro f hf b hb
      have hB : ∀ g ∈ ([[fileA, fileB, fileC]] :
          List (List PartitionedFile)).flatten,
          fileWfB packSchema ascOrder g = true := by decide
      have h2 := hB f hf
      unfold fileWfB at h2
      rw [hb] at h2
      simpa using h2)
  ⟨h.1, h.2 [[fileA, fileB], [fileC]] h.1⟩

end FileScan
